import Mathlib

/-!
# Verification of the en-croissant variation-tree core

Shallow embedding of the variation-tree operations of the `BoardAnalysis`
component (`makeMove`, `makeMoves`, `undoMove`, `redoMove`, `goToStart`,
`goToEnd`, `resetToFen`) together with spec-modelled definitions for the
parts of the repository that are not in the sampled sources (the
`VariationTree` class internals, `getTopVariation`, `getBottomVariation`,
`getPGN`/`parsePGN`, `getNodeAtPath`/`getPosition`).

Modelling decisions, all justified against the source:

* Positions (`fen` strings) and move descriptors are opaque type
  parameters `Fen` and `Move`; the source compares positions with string
  equality (`child.fen !== chess.fen()`), modelled by `DecidableEq Fen`.
* The rules oracle is chess.js (external to the repository).  Its
  `move()` call either mutates the board and returns a move record, or
  throws on an illegal move (chess.js 1.0.0-beta API, which this code
  uses: camelCase methods, `validateFen`/`DEFAULT_POSITION` named
  exports).  It is modelled, per the spec's Oracle interface, as a pure
  function `apply : Fen → Move → Option Fen`; a `none` result at the
  call site corresponds to the thrown exception, surfaced as
  `Except.error` carrying the offending move and the position it was
  attempted against.  The piece-relocation performed in editing mode
  (`chess.get`/`remove`/`put`) never throws and is modelled as a total
  function `editApply : Fen → Move → Fen`.
* The source's `tree` state variable is a node of a mutable
  parent-linked tree.  It is modelled as a zipper (`Cursor`): the
  focused subtree plus a list of crumbs recording, for each ancestor,
  its `fen`, its `move`, and the focused child's siblings.  A crumb is
  `SibCtx.mem left right` when the focused node occurs in its parent's
  `children` array (at index `left.length`), and `SibCtx.det all` when
  it does not: `makeMoves` can leave the cursor on a freshly allocated
  node that was *not* inserted into its parent's `children` (its
  dedupe branch assigns `parentTree.children.find(...)` to `parentTree`
  but leaves `newTree` pointing at the discarded duplicate, and the
  final `setTree(newTree)` installs that node).  `det all` records the
  parent's full children array, which does not contain the focus.
-/

namespace EnCroissant

universe u v

/-- Value view of the `VariationTree` class (src/unnamed/part_001 uses the
constructor as `new VariationTree(parent, fen, move)` and the fields
`fen`, `children`, `parent`).  The parent back-reference is represented by
the zipper context (`Cursor.crumbs`), not stored in the node.  Annotation
payloads (score/comment) are opaque to every claim and omitted. -/
inductive VariationTree (Fen : Type u) (Move : Type v) : Type (max u v) where
  | mk (fen : Fen) (moveIn : Option Move) (children : List (VariationTree Fen Move))

variable {Fen : Type u} {Move : Type v}

def VariationTree.fen : VariationTree Fen Move → Fen
  | .mk f _ _ => f

def VariationTree.moveIn : VariationTree Fen Move → Option Move
  | .mk _ m _ => m

def VariationTree.children : VariationTree Fen Move → List (VariationTree Fen Move)
  | .mk _ _ cs => cs

/-- Sibling context of a focused node inside its parent's `children` array:
`mem left right` when the node is present (parent children are
`left ++ focus :: right`), `det all` when the node is detached — it holds a
parent back-reference but is absent from the parent's array, whose full
contents are `all`. -/
inductive SibCtx (Fen : Type u) (Move : Type v) : Type (max u v) where
  | mem (left right : List (VariationTree Fen Move))
  | det (all : List (VariationTree Fen Move))

/-- One ancestor level of the cursor: the ancestor's own `fen` and `move`
fields plus the focused child's sibling context. -/
structure Crumb (Fen : Type u) (Move : Type v) : Type (max u v) where
  fen : Fen
  moveIn : Option Move
  sib : SibCtx Fen Move

/-- The component's `tree` state variable: a node of the parent-linked
variation tree, modelled as the focused subtree plus the ancestor crumbs
(head crumb = immediate parent). -/
structure Cursor (Fen : Type u) (Move : Type v) : Type (max u v) where
  focus : VariationTree Fen Move
  crumbs : List (Crumb Fen Move)

/-- Rebuild the parent node from a crumb and the focused subtree (one step
of following the `parent` back-reference).  A detached focus is absent from
its parent's children. -/
def zipUp1 (c : Crumb Fen Move) (t : VariationTree Fen Move) : VariationTree Fen Move :=
  match c.sib with
  | .mem l r => .mk c.fen c.moveIn (l ++ t :: r)
  | .det all => .mk c.fen c.moveIn all

/-- The root of the tree containing the cursor (follow all parent links). -/
def rootOf (z : Cursor Fen Move) : VariationTree Fen Move :=
  z.crumbs.foldl (fun t c => zipUp1 c t) z.focus

/-!
## The navigation operations (src/unnamed/part_001, lines 173-195)

`undoMove` and `redoMove` are void functions in the source: they update the
React state when possible and fall through silently otherwise; there is no
return statement, hence no error value.  The modelled result pairs the new
state with the (constantly absent) surfaced error. -/

/-- undoMove (source lines 173-177): `if (tree.parent) setTree(tree.parent)`.
The second component models the surfaced error: the source body has no
return statement, so no error is ever produced. -/
def undoMove (z : Cursor Fen Move) : Cursor Fen Move × Option Unit :=
  match z.crumbs with
  | [] => (z, none)
  | c :: rest => (⟨zipUp1 c z.focus, rest⟩, none)

/-- redoMove (source lines 179-183):
`if (tree.children.length > 0) setTree(tree.children[0])`.  Void function;
no error value is ever produced. -/
def redoMove (z : Cursor Fen Move) : Cursor Fen Move × Option Unit :=
  match z.focus with
  | .mk _ _ [] => (z, none)
  | .mk f mi (c :: cs) => (⟨c, ⟨f, mi, .mem [] cs⟩ :: z.crumbs⟩, none)

/-- Modelled from the spec: `getTopVariation` (used at source lines 108, 186,
211, 291 but defined in `utils/chess`, which is not among the sampled
sources).  Spec 4.1: go_to_start "moves cursor to the root of the tree
containing current (walks parents to the top)". -/
def topAux : VariationTree Fen Move → List (Crumb Fen Move) → Cursor Fen Move
  | t, [] => ⟨t, []⟩
  | t, c :: rest => topAux (zipUp1 c t) rest

def getTopVariation (z : Cursor Fen Move) : Cursor Fen Move :=
  topAux z.focus z.crumbs

/-- goToStart (source lines 185-187): `setTree(tree.getTopVariation())`. -/
def goToStart (z : Cursor Fen Move) : Cursor Fen Move :=
  getTopVariation z

/-- Modelled from the spec: `getBottomVariation` (used at source line 190 but
defined in `utils/chess`, not among the sampled sources).  Spec 4.1:
go_to_end "moves cursor along `children[0]` repeatedly until a leaf". -/
def getBottomVariation : Cursor Fen Move → Cursor Fen Move
  | ⟨.mk f mi [], cr⟩ => ⟨.mk f mi [], cr⟩
  | ⟨.mk f mi (c :: cs), cr⟩ => getBottomVariation ⟨c, ⟨f, mi, .mem [] cs⟩ :: cr⟩
termination_by z => sizeOf z.focus

/-- goToEnd (source lines 189-191): `setTree(tree.getBottomVariation())`. -/
def goToEnd (z : Cursor Fen Move) : Cursor Fen Move :=
  getBottomVariation z

/-- resetToFen (source lines 193-195):
`setTree(new VariationTree(null, fen, null))`.  The previous tree (the
argument `z`) is discarded wholesale. -/
def resetToFen (_z : Cursor Fen Move) (f : Fen) : Cursor Fen Move :=
  ⟨.mk f none [], []⟩

/-!
## makeMove (source lines 126-148) -/

/-- First child with the given resulting position, together with the
siblings to its left and right; models
`tree.children.find((child) => child.fen === chess.fen())` (first match)
while retaining the information needed to place the cursor there. -/
def splitAtFen [DecidableEq Fen] (f : Fen) :
    List (VariationTree Fen Move) →
      Option (List (VariationTree Fen Move) × VariationTree Fen Move ×
        List (VariationTree Fen Move))
  | [] => none
  | c :: cs =>
    if c.fen = f then some ([], c, cs)
    else (splitAtFen f cs).map fun p => (c :: p.1, p.2.1, p.2.2)

/-- makeMove (source lines 126-148).  In editing mode the whole tree is
replaced by a fresh single-node root at the edited position.  Otherwise
`chess.move(move)` is called: on an illegal move chess.js throws before any
tree mutation — modelled as `Except.error` carrying the move and the
position it was attempted against (the spec's `IllegalMove`).  On success
the three source branches are: children empty → install `[newTree]` and
move the cursor into it; no child shares the resulting position → push
`newTree`; otherwise move the cursor to the first child with that
position. -/
def makeMove [DecidableEq Fen] (apply : Fen → Move → Option Fen)
    (editApply : Fen → Move → Fen) (editingMode : Bool)
    (z : Cursor Fen Move) (m : Move) :
    Except (Move × Fen) (Cursor Fen Move) :=
  if editingMode then
    .ok ⟨.mk (editApply z.focus.fen m) none [], []⟩
  else
    match apply z.focus.fen m with
    | none => .error (m, z.focus.fen)
    | some f =>
      match z.focus with
      | .mk pf pmi cs =>
        if cs.length = 0 then
          .ok ⟨.mk f (some m) [], ⟨pf, pmi, .mem [] []⟩ :: z.crumbs⟩
        else if ∀ c ∈ cs, c.fen ≠ f then
          .ok ⟨.mk f (some m) [], ⟨pf, pmi, .mem cs []⟩ :: z.crumbs⟩
        else
          match splitAtFen f cs with
          | some (l, c, r) => .ok ⟨c, ⟨pf, pmi, .mem l r⟩ :: z.crumbs⟩
          | none => .error (m, pf)

/-- State left behind by a `makeMove` call as its caller observes it: on a
thrown illegal move the React state is never updated, so the tree and
cursor are exactly the previous ones. -/
def makeMoveStep [DecidableEq Fen] (apply : Fen → Move → Option Fen)
    (editApply : Fen → Move → Fen) (editingMode : Bool)
    (z : Cursor Fen Move) (m : Move) : Cursor Fen Move :=
  match makeMove apply editApply editingMode z m with
  | .ok z' => z'
  | .error _ => z

/-!
## makeMoves (source lines 150-171)

The loop keeps two locals: `parentTree` (the node the next move is applied
from, always an attached node) and `newTree` (the node allocated in the
latest iteration).  Each legal move either installs `[newTree]` into empty
children, pushes `newTree`, or — when some child already carries the
resulting position — moves `parentTree` to that child while `newTree`
remains a discarded duplicate ("twin").  An illegal move throws out of the
`forEach`: the mutations of the already-processed moves persist (the
children arrays were mutated in place) but the final `setTree(newTree)` is
never executed, so the cursor never moves.  On full success the cursor is
set to `newTree` — the twin, detached from its parent, when the last move
hit the dedupe branch. -/

/-- Loop of makeMoves.  `z` is the current `parentTree` position, `d` counts
how many levels below the caller's cursor the loop has descended.  Returns
the final position, the final depth, and the first illegal move (with the
position it was attempted against), if any. -/
def makeMovesAux [DecidableEq Fen] (apply : Fen → Move → Option Fen) :
    Cursor Fen Move → Nat → List Move → Cursor Fen Move × Nat × Option (Move × Fen)
  | z, d, [] => (z, d, none)
  | z, d, m :: ms =>
    match apply z.focus.fen m with
    | none => (z, d, some (m, z.focus.fen))
    | some f =>
      match z.focus with
      | .mk pf pmi cs =>
        if cs.length = 0 then
          makeMovesAux apply ⟨.mk f (some m) [], ⟨pf, pmi, .mem [] []⟩ :: z.crumbs⟩ (d + 1) ms
        else if ∀ c ∈ cs, c.fen ≠ f then
          makeMovesAux apply ⟨.mk f (some m) [], ⟨pf, pmi, .mem cs []⟩ :: z.crumbs⟩ (d + 1) ms
        else
          match splitAtFen f cs with
          | some (l, c, r) =>
            if ms.isEmpty then
              (⟨.mk f (some m) [], ⟨pf, pmi, .det cs⟩ :: z.crumbs⟩, d + 1, none)
            else
              makeMovesAux apply ⟨c, ⟨pf, pmi, .mem l r⟩ :: z.crumbs⟩ (d + 1) ms
          | none => (z, d, some (m, pf))

/-- Follow parent links upward `n` times (used to express the caller-visible
state after an exception aborts the loop). -/
def upN : Cursor Fen Move → Nat → Cursor Fen Move
  | z, 0 => z
  | z, n + 1 =>
    match z.crumbs with
    | [] => z
    | c :: rest => upN ⟨zipUp1 c z.focus, rest⟩ n

/-- makeMoves (source lines 150-171).  On success the cursor is the loop's
final `newTree`; on a thrown illegal move the caller's state is the old
cursor position with the in-place mutations of the legal ones retained. -/
def makeMoves [DecidableEq Fen] (apply : Fen → Move → Option Fen)
    (z : Cursor Fen Move) (ms : List Move) : Cursor Fen Move × Option (Move × Fen) :=
  match makeMovesAux apply z 0 ms with
  | (z', _, none) => (z', none)
  | (z', d, some e) => (upN z' d, some e)

mutual

/-- Number of nodes of a tree (used to state "single-node tree"). -/
def countNodes : VariationTree Fen Move → Nat
  | .mk _ _ cs => 1 + countList cs

/-- Number of nodes of a forest. -/
def countList : List (VariationTree Fen Move) → Nat
  | [] => 0
  | c :: rest => countNodes c + countList rest

end

/-- Reachability along first children (`children[0]` steps). -/
inductive FirstChain : VariationTree Fen Move → VariationTree Fen Move → Prop where
  | refl (t : VariationTree Fen Move) : FirstChain t t
  | step (f : Fen) (mi : Option Move) (c : VariationTree Fen Move)
      (cs : List (VariationTree Fen Move)) (t : VariationTree Fen Move) :
      FirstChain c t → FirstChain (.mk f mi (c :: cs)) t

/-!
## Lemmas about makeMoves -/

/-- Position reached by applying a sequence of moves through the oracle
(the evolution of the chess.js board during the `makeMoves` loop). -/
def fenAfter (apply : Fen → Move → Option Fen) : Fen → List Move → Option Fen
  | f, [] => some f
  | f, m :: ms =>
    match apply f m with
    | none => none
    | some f' => fenAfter apply f' ms

/-!
## The no-duplicate-children invariant (claim C4)

`DCF t` states that in the whole tree `t` no node has two children whose
resulting positions are equal; `CtxDCF` is the corresponding condition on
the cursor's ancestor crumbs, and `InvDCF` the cursor-level invariant that
every public operation preserves. -/

mutual

/-- No node of the tree has two children with the same position. -/
def DCF : VariationTree Fen Move → Prop
  | .mk _ _ cs => ((cs.map VariationTree.fen).Pairwise (· ≠ ·)) ∧ DCFkids cs

/-- Every tree of the forest satisfies `DCF`. -/
def DCFkids : List (VariationTree Fen Move) → Prop
  | [] => True
  | c :: rest => DCF c ∧ DCFkids rest

end

/-- Crumb-level duplicate-freedom: at each ancestor level the focused
node's position together with its siblings' positions are pairwise
distinct and the sibling subtrees satisfy `DCF`; for a detached focus the
parent's recorded children array carries the condition instead. -/
def CtxDCF : List (Crumb Fen Move) → Fen → Prop
  | [], _ => True
  | ⟨cf, _, .mem l r⟩ :: cr, f =>
      ((l.map VariationTree.fen ++ f :: r.map VariationTree.fen).Pairwise (· ≠ ·)) ∧
      (∀ x ∈ l, DCF x) ∧ (∀ x ∈ r, DCF x) ∧ CtxDCF cr cf
  | ⟨cf, _, .det all⟩ :: cr, _ =>
      ((all.map VariationTree.fen).Pairwise (· ≠ ·)) ∧ (∀ x ∈ all, DCF x) ∧ CtxDCF cr cf

/-- Cursor-level invariant implying duplicate-freedom of the whole tree. -/
def InvDCF (z : Cursor Fen Move) : Prop :=
  DCF z.focus ∧ CtxDCF z.crumbs z.focus.fen

/-!
## Addresses (claim C6)

`getPosition`/`goToPosition` (`address_of`/`go_to_address`) are not among
the sampled sources; they are modelled from the spec (4.1): address_of
"computes the address by walking parent links and recording each step's
child index, then reversing"; go_to_address "starting at root, follows
`address[i]`-th child at each depth; fails if any index is out of
bounds". -/

/-- Modelled from the spec: `go_to_address`/`getNodeAtPath` on bare trees —
follow the indexed child at each level from the given node, failing on an
out-of-range index. -/
def getNodeAtPath : VariationTree Fen Move → List Nat → Option (VariationTree Fen Move)
  | t, [] => some t
  | t, i :: p =>
    match t.children.get? i with
    | some c => getNodeAtPath c p
    | none => none

/-- Modelled from the spec: walk the parent links from the focused node,
recording at each step the node's index in its parent's children array
(the number of left siblings) with the innermost index last.  A detached
node has no index in its parent (JS `indexOf` misses), hence no address. -/
def addressOfAux : List (Crumb Fen Move) → List Nat → Option (List Nat)
  | [], acc => some acc
  | c :: rest, acc =>
    match c.sib with
    | .mem l _ => addressOfAux rest (l.length :: acc)
    | .det _ => none

/-- Modelled from the spec: `address_of` of the focused node. -/
def addressOf (z : Cursor Fen Move) : Option (List Nat) :=
  addressOfAux z.crumbs []

/-- Modelled from the spec: `go_to_address` returning the full cursor
(node identity is its focus together with its location). -/
def cursorAtPathAux : Cursor Fen Move → List Nat → Option (Cursor Fen Move)
  | z, [] => some z
  | z, i :: p =>
    match z.focus with
    | .mk f mi cs =>
      if h : i < cs.length then
        cursorAtPathAux
          ⟨cs.get ⟨i, h⟩, ⟨f, mi, .mem (cs.take i) (cs.drop (i + 1))⟩ :: z.crumbs⟩ p
      else none

/-- Modelled from the spec: `go_to_address` from the root of a tree. -/
def cursorAtPath (root : VariationTree Fen Move) (p : List Nat) :
    Option (Cursor Fen Move) :=
  cursorAtPathAux ⟨root, []⟩ p

/-!
## The notation codec (claim C5)

`getPGN` and `parsePGN` live in `utils/chess`, which is not among the
sampled sources; they are modelled from the spec (4.2) at the token level:
movetext is a sequence of move tokens and variation brackets (move
numbers and result markers are presentation only and carry no structure).
Serialization of a node's children emits the main-line move first, then
each further child as a bracketed variation (the child's move followed by
its own line), then the main line's continuation; parsing rebuilds the
tree through the oracle from the starting position, attaching each
bracketed variation as an additional child of the position it diverges
from, and resumes the enclosing line afterwards. -/

/-- Movetext token: a move, or a variation bracket. -/
inductive Tok (Move : Type v) : Type v where
  | mv (m : Move)
  | lparen
  | rparen

/-- Serialized form of a `move_in` field (absent only on malformed input:
trees built by the operations always carry a move below the root). -/
def serMove : Option Move → List (Tok Move)
  | some m => [.mv m]
  | none => []

mutual

/-- Modelled from the spec: the movetext of the line starting at a node
(the node's own move is emitted by its parent's serialization). -/
def serLine : VariationTree Fen Move → List (Tok Move)
  | .mk _ _ cs => serChildren cs

/-- Movetext of a children list: main-line move, bracketed variations,
main-line continuation. -/
def serChildren : List (VariationTree Fen Move) → List (Tok Move)
  | [] => []
  | c :: rest => serMove c.moveIn ++ serVars rest ++ serLine c

/-- Movetext of the non-main children, each as a bracketed variation. -/
def serVars : List (VariationTree Fen Move) → List (Tok Move)
  | [] => []
  | c :: rest => Tok.lparen :: (serMove c.moveIn ++ serLine c ++ [Tok.rparen]) ++ serVars rest

end

/-- Modelled from the spec: `getPGN` — full-tree serialization, main line
first, variations bracketed, recursively. -/
def getPGN (t : VariationTree Fen Move) : List (Tok Move) :=
  serLine t

mutual

/-- Modelled from the spec: parse one line — a sequence of moves applied
through the oracle from `f`, each possibly followed by bracketed
variations diverging from the position before the move; stops at the end
of input or at the enclosing variation's closing bracket.  Fuel-indexed;
the top-level call supplies sufficient fuel. -/
def parseLine (apply : Fen → Move → Option Fen) (f : Fen) :
    List (Tok Move) → Nat → Option (List (VariationTree Fen Move) × List (Tok Move))
  | _, 0 => none
  | [], _ + 1 => some ([], [])
  | .rparen :: toks, _ + 1 => some ([], .rparen :: toks)
  | .lparen :: _, _ + 1 => none
  | .mv m :: toks, fuel + 1 =>
    match apply f m with
    | none => none
    | some f' =>
      match parseVars apply f toks fuel with
      | none => none
      | some (vars, toks') =>
        match parseLine apply f' toks' fuel with
        | none => none
        | some (kids, toks'') => some (.mk f' (some m) kids :: vars, toks'')

/-- Modelled from the spec: parse the bracketed variations attached at the
position `f`; stops at the first token that does not open a bracket. -/
def parseVars (apply : Fen → Move → Option Fen) (f : Fen) :
    List (Tok Move) → Nat → Option (List (VariationTree Fen Move) × List (Tok Move))
  | _, 0 => none
  | toks, fuel + 1 =>
    match toks with
    | .lparen :: rest =>
      match rest with
      | .mv m :: toks2 =>
        match apply f m with
        | none => none
        | some f' =>
          match parseLine apply f' toks2 fuel with
          | none => none
          | some (kids, toks3) =>
            match toks3 with
            | .rparen :: toks4 =>
              match parseVars apply f toks4 fuel with
              | none => none
              | some (vars, toks5) => some (.mk f' (some m) kids :: vars, toks5)
            | _ => none
      | _ => none
    | _ => some ([], toks)

end

/-- Modelled from the spec: `parsePGN` — parse a full movetext into a tree
rooted at the given starting position; the whole input must be consumed. -/
def parsePGN (apply : Fen → Move → Option Fen) (f0 : Fen) (toks : List (Tok Move)) :
    Option (VariationTree Fen Move) :=
  match parseLine apply f0 toks (toks.length + 1) with
  | some (kids, []) => some (.mk f0 none kids)
  | _ => none

/-- Oracle-consistency of a child: its stored move applied to the parent's
position yields the child's position. -/
def MC (apply : Fen → Move → Option Fen) (pf : Fen) (c : VariationTree Fen Move) : Prop :=
  ∃ m, c.moveIn = some m ∧ apply pf m = some c.fen

mutual

/-- Oracle-consistency of a whole tree below its root. -/
def TC (apply : Fen → Move → Option Fen) : VariationTree Fen Move → Prop
  | .mk f _ cs => TCkids apply f cs

/-- Oracle-consistency of a children list under a parent position. -/
def TCkids (apply : Fen → Move → Option Fen) : Fen → List (VariationTree Fen Move) → Prop
  | _, [] => True
  | f, c :: rest => MC apply f c ∧ TC apply c ∧ TCkids apply f rest

end

/-- Continuations at which a line legitimately ends: end of input or the
closing bracket of the enclosing variation. -/
def endOK : List (Tok Move) → Prop
  | [] => True
  | .rparen :: _ => True
  | _ => False

/-- Continuations that do not open a variation bracket. -/
def headNotL : List (Tok Move) → Prop
  | .lparen :: _ => False
  | _ => True

/-!
## Oracle-consistency of trees built by the operations -/

/-- Crumb-level oracle-consistency: at each ancestor level the focused
node's move applied to the parent's position yields the focused node's
position, and the sibling subtrees are consistent; a detached focus is not
a child, so only the parent's recorded children array is constrained. -/
def CtxTC (apply : Fen → Move → Option Fen) :
    List (Crumb Fen Move) → Fen → Option Move → Prop
  | [], _, _ => True
  | ⟨cf, cmi, .mem l r⟩ :: cr, f, mi =>
      (∃ m, mi = some m ∧ apply cf m = some f) ∧
      (∀ x ∈ l, MC apply cf x ∧ TC apply x) ∧
      (∀ x ∈ r, MC apply cf x ∧ TC apply x) ∧ CtxTC apply cr cf cmi
  | ⟨cf, cmi, .det all⟩ :: cr, _, _ =>
      (∀ x ∈ all, MC apply cf x ∧ TC apply x) ∧ CtxTC apply cr cf cmi

/-- Cursor-level oracle-consistency. -/
def InvTC (apply : Fen → Move → Option Fen) (z : Cursor Fen Move) : Prop :=
  TC apply z.focus ∧ CtxTC apply z.crumbs z.focus.fen z.focus.moveIn

/-!
## Claim C5: round trip over trees built by make_move/make_moves -/

/-- A tree-building call: one interactive move (non-editing `makeMove`) or
one engine line (`makeMoves`). -/
inductive BuildOp (Move : Type v) where
  | one (m : Move)
  | many (ms : List Move)

/-- State transition of a building call (the editing-mode helper passed to
`makeMove` is irrelevant: the editing branch is never taken). -/
def applyBuild [DecidableEq Fen] (apply : Fen → Move → Option Fen)
    (z : Cursor Fen Move) : BuildOp Move → Cursor Fen Move
  | .one m => makeMoveStep apply (fun f _ => f) false z m
  | .many ms => (makeMoves apply z ms).1

/-- Tree grown from a fresh single-node tree at the starting position by a
sequence of building calls. -/
def buildTree [DecidableEq Fen] (apply : Fen → Move → Option Fen) (f0 : Fen)
    (ops : List (BuildOp Move)) : Cursor Fen Move :=
  ops.foldl (applyBuild apply) ⟨.mk f0 none [], []⟩

/-!
## The public operations as a transition system -/

/-- One public operation of the variation-tree component, with its
arguments. -/
inductive TreeOp (Fen : Type u) (Move : Type v) where
  | play (editing : Bool) (m : Move)
  | playMany (ms : List Move)
  | undo
  | redo
  | start
  | finish
  | reset (f : Fen)

/-- Caller-visible state transition of one public operation. -/
def applyOp [DecidableEq Fen] (apply : Fen → Move → Option Fen)
    (editApply : Fen → Move → Fen) (z : Cursor Fen Move) : TreeOp Fen Move → Cursor Fen Move
  | .play e m => makeMoveStep apply editApply e z m
  | .playMany ms => (makeMoves apply z ms).1
  | .undo => (undoMove z).1
  | .redo => (redoMove z).1
  | .start => goToStart z
  | .finish => goToEnd z
  | .reset f => resetToFen z f

/-- State after a sequence of public operations. -/
def applyOps [DecidableEq Fen] (apply : Fen → Move → Option Fen)
    (editApply : Fen → Move → Fen) (z : Cursor Fen Move)
    (ops : List (TreeOp Fen Move)) : Cursor Fen Move :=
  ops.foldl (applyOp apply editApply) z

/-!
## Concrete instance for witnesses and counterexamples

A small executable oracle over natural-number positions: from position
`f < 20` the move descriptors `0` and `1` are legal and lead to the
distinct positions `2 f + 1` and `2 f + 2`; every other move is illegal.
The board-edit helper is an arbitrary total function. -/

def apN : Nat → Nat → Option Nat :=
  fun f m => if m ≤ 1 ∧ f < 20 then some (2 * f + m + 1) else none

def edN : Nat → Nat → Nat :=
  fun f m => 100 * f + m

/-- Fresh single-node state at position 0. -/
def zRoot : Cursor Nat Nat := ⟨.mk 0 none [], []⟩

/-- Root at position 0 with one recorded move leading to position 1. -/
def zOne : Cursor Nat Nat := ⟨.mk 0 none [.mk 1 (some 0) []], []⟩

/-- Cursor on the child of `zOne` (position 1, reached by move 0). -/
def zChild : Cursor Nat Nat := ⟨.mk 1 (some 0) [], [⟨0, none, .mem [] []⟩]⟩

/-- State used by the C10 witness: a two-node tree with the cursor on the
child (position 3). -/
def zEdit : Cursor Nat Nat := ⟨.mk 3 (some 1) [.mk 7 (some 0) []], [⟨0, none, .mem [] []⟩]⟩

/-!
## Theorems -/

@[simp] theorem VariationTree.fen_mk (f : Fen) (m : Option Move)
    (cs : List (VariationTree Fen Move)) : (VariationTree.mk f m cs).fen = f := rfl

@[simp] theorem VariationTree.moveIn_mk (f : Fen) (m : Option Move)
    (cs : List (VariationTree Fen Move)) : (VariationTree.mk f m cs).moveIn = m := rfl

@[simp] theorem VariationTree.children_mk (f : Fen) (m : Option Move)
    (cs : List (VariationTree Fen Move)) : (VariationTree.mk f m cs).children = cs := rfl

theorem VariationTree.eta (t : VariationTree Fen Move) :
    VariationTree.mk t.fen t.moveIn t.children = t := by
  cases t
  rfl

@[simp] theorem rootOf_nil (t : VariationTree Fen Move) :
    rootOf ⟨t, []⟩ = t := rfl

theorem rootOf_cons (t : VariationTree Fen Move) (c : Crumb Fen Move)
    (cr : List (Crumb Fen Move)) :
    rootOf ⟨t, c :: cr⟩ = rootOf ⟨zipUp1 c t, cr⟩ := rfl

theorem makeMove_edit [DecidableEq Fen] (apply : Fen → Move → Option Fen)
    (editApply : Fen → Move → Fen) (z : Cursor Fen Move) (m : Move) :
    makeMove apply editApply true z m =
      .ok ⟨.mk (editApply z.focus.fen m) none [], []⟩ := rfl

theorem makeMove_err [DecidableEq Fen] (apply : Fen → Move → Option Fen)
    (editApply : Fen → Move → Fen) (pf : Fen) (pmi : Option Move)
    (cs : List (VariationTree Fen Move)) (cr : List (Crumb Fen Move)) (m : Move)
    (hap : apply pf m = none) :
    makeMove apply editApply false ⟨.mk pf pmi cs, cr⟩ m = .error (m, pf) := by
  simp only [makeMove, VariationTree.fen_mk, hap, Bool.false_eq_true, if_false]

theorem makeMove_empty [DecidableEq Fen] (apply : Fen → Move → Option Fen)
    (editApply : Fen → Move → Fen) (pf : Fen) (pmi : Option Move)
    (cr : List (Crumb Fen Move)) (m : Move) (f : Fen) (hap : apply pf m = some f) :
    makeMove apply editApply false ⟨.mk pf pmi [], cr⟩ m =
      .ok ⟨.mk f (some m) [], ⟨pf, pmi, .mem [] []⟩ :: cr⟩ := by
  simp only [makeMove, VariationTree.fen_mk, hap, Bool.false_eq_true, if_false,
    List.length_nil, if_pos]

theorem makeMove_push [DecidableEq Fen] (apply : Fen → Move → Option Fen)
    (editApply : Fen → Move → Fen) (pf : Fen) (pmi : Option Move)
    (cs : List (VariationTree Fen Move)) (cr : List (Crumb Fen Move)) (m : Move) (f : Fen)
    (hap : apply pf m = some f) (h0 : ¬ cs.length = 0) (hall : ∀ c ∈ cs, c.fen ≠ f) :
    makeMove apply editApply false ⟨.mk pf pmi cs, cr⟩ m =
      .ok ⟨.mk f (some m) [], ⟨pf, pmi, .mem cs []⟩ :: cr⟩ := by
  simp only [makeMove, VariationTree.fen_mk, hap, Bool.false_eq_true, if_false,
    if_neg h0, if_pos hall]

theorem makeMove_dup [DecidableEq Fen] (apply : Fen → Move → Option Fen)
    (editApply : Fen → Move → Fen) (pf : Fen) (pmi : Option Move)
    (cs : List (VariationTree Fen Move)) (cr : List (Crumb Fen Move)) (m : Move) (f : Fen)
    (l : List (VariationTree Fen Move)) (c : VariationTree Fen Move)
    (r : List (VariationTree Fen Move))
    (hap : apply pf m = some f) (h0 : ¬ cs.length = 0) (hall : ¬ ∀ c ∈ cs, c.fen ≠ f)
    (hsplit : splitAtFen f cs = some (l, c, r)) :
    makeMove apply editApply false ⟨.mk pf pmi cs, cr⟩ m =
      .ok ⟨c, ⟨pf, pmi, .mem l r⟩ :: cr⟩ := by
  simp only [makeMove, VariationTree.fen_mk, hap, Bool.false_eq_true, if_false,
    if_neg h0, if_neg hall, hsplit]

/-!
## Basic zipper lemmas -/

theorem rootOf_upN (n : Nat) (z : Cursor Fen Move) : rootOf (upN z n) = rootOf z := by
  induction n generalizing z with
  | zero => rfl
  | succ n ih =>
    match z with
    | ⟨t, []⟩ => simp [upN]
    | ⟨t, c :: rest⟩ =>
      show rootOf (upN ⟨zipUp1 c t, rest⟩ n) = _
      rw [ih, rootOf_cons]

theorem topAux_eq (t : VariationTree Fen Move) (cr : List (Crumb Fen Move)) :
    topAux t cr = ⟨rootOf ⟨t, cr⟩, []⟩ := by
  induction cr generalizing t with
  | nil => rfl
  | cons c rest ih =>
    show topAux (zipUp1 c t) rest = _
    rw [ih, rootOf_cons]

theorem getTopVariation_eq (z : Cursor Fen Move) :
    getTopVariation z = ⟨rootOf z, []⟩ := by
  cases z
  exact topAux_eq _ _

theorem getBottomVariation_spec (z : Cursor Fen Move) :
    rootOf (getBottomVariation z) = rootOf z ∧
      (getBottomVariation z).focus.children = [] ∧
      FirstChain z.focus (getBottomVariation z).focus := by
  match z with
  | ⟨.mk f mi [], cr⟩ =>
    have hdef : getBottomVariation ⟨VariationTree.mk f mi [], cr⟩ =
        ⟨VariationTree.mk f mi [], cr⟩ := by
      simp [getBottomVariation]
    rw [hdef]
    exact ⟨rfl, rfl, FirstChain.refl _⟩
  | ⟨.mk f mi (c :: cs), cr⟩ =>
    have ih := getBottomVariation_spec ⟨c, ⟨f, mi, .mem [] cs⟩ :: cr⟩
    have hroot : rootOf ⟨c, (⟨f, mi, .mem [] cs⟩ : Crumb Fen Move) :: cr⟩ =
        rootOf ⟨.mk f mi (c :: cs), cr⟩ := by
      rw [rootOf_cons]
      simp [zipUp1]
    have hdef : getBottomVariation ⟨VariationTree.mk f mi (c :: cs), cr⟩ =
        getBottomVariation ⟨c, ⟨f, mi, .mem [] cs⟩ :: cr⟩ := by
      simp [getBottomVariation]
    rw [hdef]
    exact ⟨by rw [ih.1, hroot], ih.2.1, FirstChain.step f mi c cs _ ih.2.2⟩
termination_by sizeOf z.focus

theorem splitAtFen_eq [DecidableEq Fen] {f : Fen} {cs : List (VariationTree Fen Move)}
    {l : List (VariationTree Fen Move)} {c : VariationTree Fen Move}
    {r : List (VariationTree Fen Move)} (h : splitAtFen f cs = some (l, c, r)) :
    cs = l ++ c :: r ∧ c.fen = f ∧ ∀ x ∈ l, x.fen ≠ f := by
  induction cs generalizing l with
  | nil => simp [splitAtFen] at h
  | cons a as ih =>
    by_cases ha : a.fen = f
    · simp [splitAtFen, ha] at h
      obtain ⟨h1, h2, h3⟩ := h
      subst h1 h2 h3
      exact ⟨rfl, ha, by simp⟩
    · simp [splitAtFen, ha] at h
      obtain ⟨l', hsome, hl⟩ := h
      subst hl
      obtain ⟨e1, e2, e3⟩ := ih hsome
      refine ⟨by rw [e1]; simp, e2, ?_⟩
      intro x hx
      rcases List.mem_cons.mp hx with hx | hx
      · subst hx; exact ha
      · exact e3 x hx

theorem splitAtFen_isSome [DecidableEq Fen] {f : Fen} {cs : List (VariationTree Fen Move)}
    (h : ∃ c ∈ cs, c.fen = f) :
    ∃ l c r, splitAtFen f cs = some (l, c, r) := by
  induction cs with
  | nil => simp at h
  | cons a as ih =>
    by_cases ha : a.fen = f
    · exact ⟨[], a, as, by simp [splitAtFen, ha]⟩
    · obtain ⟨c, hc, hcf⟩ := h
      rcases List.mem_cons.mp hc with hc | hc
      · subst hc; exact absurd hcf ha
      · obtain ⟨l, c', r, hs⟩ := ih ⟨c, hc, hcf⟩
        exact ⟨a :: l, c', r, by simp [splitAtFen, ha, hs]⟩

theorem upN_nilCrumbs (t : VariationTree Fen Move) (n : Nat) :
    upN ⟨t, []⟩ n = ⟨t, []⟩ := by
  cases n <;> rfl

theorem upN_add (a b : Nat) (z : Cursor Fen Move) :
    upN z (a + b) = upN (upN z a) b := by
  induction a generalizing z with
  | zero => rw [Nat.zero_add]; rfl
  | succ a ih =>
    match z with
    | ⟨t, []⟩ => rw [upN_nilCrumbs, upN_nilCrumbs, upN_nilCrumbs]
    | ⟨t, c :: rest⟩ =>
      have h1 : (a + 1) + b = (a + b) + 1 := by omega
      rw [h1]
      show upN ⟨zipUp1 c t, rest⟩ (a + b) = upN (upN ⟨zipUp1 c t, rest⟩ a) b
      exact ih _

theorem upN_one (t : VariationTree Fen Move) (c : Crumb Fen Move)
    (cr : List (Crumb Fen Move)) : upN ⟨t, c :: cr⟩ 1 = ⟨zipUp1 c t, cr⟩ := rfl

theorem exists_mem_of_not_all_ne {f : Fen} {cs : List (VariationTree Fen Move)}
    (h : ¬ ∀ c ∈ cs, c.fen ≠ f) : ∃ c ∈ cs, c.fen = f := by
  push_neg at h
  exact h

/-!
One-step equations for the `makeMoves` loop. -/

theorem makeMovesAux_nil [DecidableEq Fen] (apply : Fen → Move → Option Fen)
    (z : Cursor Fen Move) (d : Nat) : makeMovesAux apply z d [] = (z, d, none) := rfl

theorem makeMovesAux_cons_err [DecidableEq Fen] (apply : Fen → Move → Option Fen)
    (pf : Fen) (pmi : Option Move) (cs : List (VariationTree Fen Move))
    (cr : List (Crumb Fen Move)) (d : Nat) (m : Move) (ms : List Move)
    (hap : apply pf m = none) :
    makeMovesAux apply ⟨.mk pf pmi cs, cr⟩ d (m :: ms) =
      (⟨.mk pf pmi cs, cr⟩, d, some (m, pf)) := by
  simp only [makeMovesAux, VariationTree.fen_mk, hap]

theorem makeMovesAux_cons_empty [DecidableEq Fen] (apply : Fen → Move → Option Fen)
    (pf : Fen) (pmi : Option Move) (cr : List (Crumb Fen Move)) (d : Nat) (m : Move)
    (ms : List Move) (f : Fen) (hap : apply pf m = some f) :
    makeMovesAux apply ⟨.mk pf pmi [], cr⟩ d (m :: ms) =
      makeMovesAux apply ⟨.mk f (some m) [], ⟨pf, pmi, .mem [] []⟩ :: cr⟩ (d + 1) ms := by
  simp only [makeMovesAux, VariationTree.fen_mk, hap, List.length_nil, if_pos]

theorem makeMovesAux_cons_push [DecidableEq Fen] (apply : Fen → Move → Option Fen)
    (pf : Fen) (pmi : Option Move) (cs : List (VariationTree Fen Move))
    (cr : List (Crumb Fen Move)) (d : Nat) (m : Move) (ms : List Move) (f : Fen)
    (hap : apply pf m = some f) (h0 : ¬ cs.length = 0) (hall : ∀ c ∈ cs, c.fen ≠ f) :
    makeMovesAux apply ⟨.mk pf pmi cs, cr⟩ d (m :: ms) =
      makeMovesAux apply ⟨.mk f (some m) [], ⟨pf, pmi, .mem cs []⟩ :: cr⟩ (d + 1) ms := by
  simp only [makeMovesAux, VariationTree.fen_mk, hap, if_neg h0, if_pos hall]

theorem makeMovesAux_cons_dup_last [DecidableEq Fen] (apply : Fen → Move → Option Fen)
    (pf : Fen) (pmi : Option Move) (cs : List (VariationTree Fen Move))
    (cr : List (Crumb Fen Move)) (d : Nat) (m : Move) (f : Fen)
    (l : List (VariationTree Fen Move)) (c : VariationTree Fen Move)
    (r : List (VariationTree Fen Move))
    (hap : apply pf m = some f) (h0 : ¬ cs.length = 0) (hall : ¬ ∀ c ∈ cs, c.fen ≠ f)
    (hsplit : splitAtFen f cs = some (l, c, r)) :
    makeMovesAux apply ⟨.mk pf pmi cs, cr⟩ d [m] =
      (⟨.mk f (some m) [], ⟨pf, pmi, .det cs⟩ :: cr⟩, d + 1, none) := by
  simp only [makeMovesAux, VariationTree.fen_mk, hap, if_neg h0, if_neg hall, hsplit,
    List.isEmpty_nil, if_pos]

theorem makeMovesAux_cons_dup_go [DecidableEq Fen] (apply : Fen → Move → Option Fen)
    (pf : Fen) (pmi : Option Move) (cs : List (VariationTree Fen Move))
    (cr : List (Crumb Fen Move)) (d : Nat) (m : Move) (ms : List Move) (f : Fen)
    (l : List (VariationTree Fen Move)) (c : VariationTree Fen Move)
    (r : List (VariationTree Fen Move))
    (hap : apply pf m = some f) (h0 : ¬ cs.length = 0) (hall : ¬ ∀ c ∈ cs, c.fen ≠ f)
    (hsplit : splitAtFen f cs = some (l, c, r)) (hne : ms.isEmpty = false) :
    makeMovesAux apply ⟨.mk pf pmi cs, cr⟩ d (m :: ms) =
      makeMovesAux apply ⟨c, ⟨pf, pmi, .mem l r⟩ :: cr⟩ (d + 1) ms := by
  simp only [makeMovesAux, VariationTree.fen_mk, hap, if_neg h0, if_neg hall, hsplit, hne,
    Bool.false_eq_true, if_neg, ite_false]

/-- Shape of a `makeMoves` loop run: it descends `k` levels (for some `k`),
and following `k` parent links from the final position restores the
caller's crumbs and the header (`fen`, `move`) of the node the cursor was
on — only that node's subtree has been mutated. -/
theorem makeMovesAux_shape [DecidableEq Fen] (apply : Fen → Move → Option Fen) :
    ∀ (ms : List Move) (z : Cursor Fen Move) (d : Nat),
    ∃ zr k e t', makeMovesAux apply z d ms = (zr, d + k, e) ∧
      upN zr k = ⟨t', z.crumbs⟩ ∧ t'.fen = z.focus.fen ∧ t'.moveIn = z.focus.moveIn := by
  intro ms
  induction ms with
  | nil =>
    intro z d
    exact ⟨z, 0, none, z.focus, by rw [makeMovesAux_nil, Nat.add_zero], by cases z; rfl,
      rfl, rfl⟩
  | cons m ms ih =>
    intro z d
    obtain ⟨⟨pf, pmi, cs⟩, cr⟩ := z
    cases hap : apply pf m with
    | none =>
      exact ⟨⟨.mk pf pmi cs, cr⟩, 0, some (m, pf), .mk pf pmi cs,
        by rw [makeMovesAux_cons_err apply pf pmi cs cr d m ms hap, Nat.add_zero],
        rfl, rfl, rfl⟩
    | some f =>
      by_cases h0 : cs.length = 0
      · have hcs : cs = [] := List.length_eq_zero.mp h0
        subst hcs
        obtain ⟨zr, k, e, t₁, h1, h2, h3, h4⟩ :=
          ih ⟨.mk f (some m) [], ⟨pf, pmi, .mem [] []⟩ :: cr⟩ (d + 1)
        refine ⟨zr, k + 1, e, zipUp1 ⟨pf, pmi, .mem [] []⟩ t₁, ?_, ?_,
          by simp [zipUp1], by simp [zipUp1]⟩
        · rw [makeMovesAux_cons_empty apply pf pmi cr d m ms f hap, h1]
          rw [show d + 1 + k = d + (k + 1) by omega]
        · rw [upN_add k 1 zr, h2, upN_one]
      · by_cases hall : ∀ c ∈ cs, c.fen ≠ f
        · obtain ⟨zr, k, e, t₁, h1, h2, h3, h4⟩ :=
            ih ⟨.mk f (some m) [], ⟨pf, pmi, .mem cs []⟩ :: cr⟩ (d + 1)
          refine ⟨zr, k + 1, e, zipUp1 ⟨pf, pmi, .mem cs []⟩ t₁, ?_, ?_,
            by simp [zipUp1], by simp [zipUp1]⟩
          · rw [makeMovesAux_cons_push apply pf pmi cs cr d m ms f hap h0 hall, h1]
            rw [show d + 1 + k = d + (k + 1) by omega]
          · rw [upN_add k 1 zr, h2, upN_one]
        · obtain ⟨l, c, r, hsplit⟩ := splitAtFen_isSome (exists_mem_of_not_all_ne hall)
          cases hms : ms with
          | nil =>
            refine ⟨⟨.mk f (some m) [], ⟨pf, pmi, .det cs⟩ :: cr⟩, 1, none,
              .mk pf pmi cs, ?_, ?_, rfl, rfl⟩
            · rw [makeMovesAux_cons_dup_last apply pf pmi cs cr d m f l c r hap h0 hall hsplit]
            · rw [upN_one]
              simp [zipUp1]
          | cons m' ms' =>
            obtain ⟨zr, k, e, t₁, h1, h2, h3, h4⟩ :=
              ih ⟨c, ⟨pf, pmi, .mem l r⟩ :: cr⟩ (d + 1)
            refine ⟨zr, k + 1, e, zipUp1 ⟨pf, pmi, .mem l r⟩ t₁, ?_, ?_,
              by simp [zipUp1], by simp [zipUp1]⟩
            · rw [hms] at h1
              rw [makeMovesAux_cons_dup_go apply pf pmi cs cr d m (m' :: ms') f l c r hap h0
                hall hsplit rfl, h1]
              rw [show d + 1 + k = d + (k + 1) by omega]
            · rw [upN_add k 1 zr, h2, upN_one]

/-- A fully legal move sequence runs the loop to completion: no error is
reported and the final position carries the position reached by the
sequence. -/
theorem makeMovesAux_legal [DecidableEq Fen] (apply : Fen → Move → Option Fen) :
    ∀ (ms : List Move) (z : Cursor Fen Move) (d : Nat) (f1 : Fen),
    fenAfter apply z.focus.fen ms = some f1 →
    (makeMovesAux apply z d ms).2.2 = none ∧
      (makeMovesAux apply z d ms).1.focus.fen = f1 := by
  intro ms
  induction ms with
  | nil =>
    intro z d f1 hleg
    simp [fenAfter] at hleg
    subst hleg
    exact ⟨rfl, rfl⟩
  | cons m ms ih =>
    intro z d f1 hleg
    obtain ⟨⟨pf, pmi, cs⟩, cr⟩ := z
    simp only [VariationTree.fen_mk] at hleg ⊢
    cases hap : apply pf m with
    | none => simp [fenAfter, hap] at hleg
    | some f =>
      rw [show fenAfter apply pf (m :: ms) = fenAfter apply f ms by
        simp [fenAfter, hap]] at hleg
      by_cases h0 : cs.length = 0
      · have hcs : cs = [] := List.length_eq_zero.mp h0
        subst hcs
        have := ih ⟨.mk f (some m) [], ⟨pf, pmi, .mem [] []⟩ :: cr⟩ (d + 1) f1 hleg
        rwa [makeMovesAux_cons_empty apply pf pmi cr d m ms f hap]
      · by_cases hall : ∀ c ∈ cs, c.fen ≠ f
        · have := ih ⟨.mk f (some m) [], ⟨pf, pmi, .mem cs []⟩ :: cr⟩ (d + 1) f1 hleg
          rwa [makeMovesAux_cons_push apply pf pmi cs cr d m ms f hap h0 hall]
        · obtain ⟨l, c, r, hsplit⟩ := splitAtFen_isSome (exists_mem_of_not_all_ne hall)
          obtain ⟨hcs, hcf, _⟩ := splitAtFen_eq hsplit
          cases ms with
          | nil =>
            simp [fenAfter] at hleg
            subst hleg
            rw [makeMovesAux_cons_dup_last apply pf pmi cs cr d m f l c r hap h0 hall hsplit]
            exact ⟨rfl, rfl⟩
          | cons m' ms' =>
            have := ih ⟨c, ⟨pf, pmi, .mem l r⟩ :: cr⟩ (d + 1) f1 (by
              simpa [hcf] using hleg)
            rwa [makeMovesAux_cons_dup_go apply pf pmi cs cr d m (m' :: ms') f l c r hap h0
              hall hsplit rfl]

/-- When a fully legal initial segment is followed by an illegal move, the
loop reports that move together with the position it was attempted
against, and the tree it leaves behind is exactly the tree produced by
running the legal segment alone: every node created for the legal segment
is retained and no node is created for the illegal move or after it. -/
theorem makeMovesAux_err [DecidableEq Fen] (apply : Fen → Move → Option Fen) :
    ∀ (ms : List Move) (z : Cursor Fen Move) (d : Nat) (f1 : Fen) (m : Move) (ms2 : List Move),
    fenAfter apply z.focus.fen ms = some f1 → apply f1 m = none →
    (makeMovesAux apply z d (ms ++ m :: ms2)).2.2 = some (m, f1) ∧
      rootOf (makeMovesAux apply z d (ms ++ m :: ms2)).1 =
        rootOf (makeMovesAux apply z d ms).1 := by
  intro ms
  induction ms with
  | nil =>
    intro z d f1 m ms2 hleg hbad
    simp [fenAfter] at hleg
    subst hleg
    obtain ⟨⟨pf, pmi, cs⟩, cr⟩ := z
    simp only [VariationTree.fen_mk] at hbad
    rw [List.nil_append, makeMovesAux_cons_err apply pf pmi cs cr d m ms2 hbad,
      makeMovesAux_nil]
    exact ⟨rfl, rfl⟩
  | cons m0 ms ih =>
    intro z d f1 m ms2 hleg hbad
    obtain ⟨⟨pf, pmi, cs⟩, cr⟩ := z
    simp only [VariationTree.fen_mk] at hleg
    cases hap : apply pf m0 with
    | none => simp [fenAfter, hap] at hleg
    | some f =>
      rw [show fenAfter apply pf (m0 :: ms) = fenAfter apply f ms by
        simp [fenAfter, hap]] at hleg
      rw [List.cons_append]
      by_cases h0 : cs.length = 0
      · have hcs : cs = [] := List.length_eq_zero.mp h0
        subst hcs
        have := ih ⟨.mk f (some m0) [], ⟨pf, pmi, .mem [] []⟩ :: cr⟩ (d + 1) f1 m ms2 hleg hbad
        rwa [makeMovesAux_cons_empty apply pf pmi cr d m0 (ms ++ m :: ms2) f hap,
          makeMovesAux_cons_empty apply pf pmi cr d m0 ms f hap]
      · by_cases hall : ∀ c ∈ cs, c.fen ≠ f
        · have := ih ⟨.mk f (some m0) [], ⟨pf, pmi, .mem cs []⟩ :: cr⟩ (d + 1) f1 m ms2 hleg hbad
          rwa [makeMovesAux_cons_push apply pf pmi cs cr d m0 (ms ++ m :: ms2) f hap h0 hall,
            makeMovesAux_cons_push apply pf pmi cs cr d m0 ms f hap h0 hall]
        · obtain ⟨l, c, r, hsplit⟩ := splitAtFen_isSome (exists_mem_of_not_all_ne hall)
          obtain ⟨hcs, hcf, _⟩ := splitAtFen_eq hsplit
          cases ms with
          | nil =>
            simp [fenAfter] at hleg
            subst hleg
            obtain ⟨cf, cmi, ccs⟩ := c
            simp only [VariationTree.fen_mk] at hcf
            have hbad' : apply cf m = none := by rw [hcf]; exact hbad
            rw [List.nil_append,
              makeMovesAux_cons_dup_go apply pf pmi cs cr d m0 (m :: ms2) f l _ r hap h0
                hall hsplit rfl,
              makeMovesAux_cons_err apply cf cmi ccs
                (⟨pf, pmi, .mem l r⟩ :: cr) (d + 1) m ms2 hbad',
              makeMovesAux_cons_dup_last apply pf pmi cs cr d m0 f l _ r hap h0 hall hsplit]
            refine ⟨by rw [hcf], ?_⟩
            rw [rootOf_cons, rootOf_cons]
            simp only [zipUp1]
            rw [← hcs]
          | cons m1 ms' =>
            have := ih ⟨c, ⟨pf, pmi, .mem l r⟩ :: cr⟩ (d + 1) f1 m ms2 (by
              simpa [hcf] using hleg) hbad
            rwa [makeMovesAux_cons_dup_go apply pf pmi cs cr d m0 ((m1 :: ms') ++ m :: ms2) f
                l c r hap h0 hall hsplit rfl,
              makeMovesAux_cons_dup_go apply pf pmi cs cr d m0 (m1 :: ms') f l c r hap h0
                hall hsplit rfl]

theorem makeMoves_of_none_err [DecidableEq Fen] (apply : Fen → Move → Option Fen)
    (z : Cursor Fen Move) (ms : List Move)
    (h : (makeMovesAux apply z 0 ms).2.2 = none) :
    makeMoves apply z ms = ((makeMovesAux apply z 0 ms).1, none) := by
  unfold makeMoves
  rcases hx : makeMovesAux apply z 0 ms with ⟨zp, dp, ep⟩
  rw [hx] at h
  simp only at h
  subst h
  rfl

theorem makeMoves_of_some_err [DecidableEq Fen] (apply : Fen → Move → Option Fen)
    (z : Cursor Fen Move) (ms : List Move) (zr : Cursor Fen Move) (k : Nat)
    (e : Move × Fen) (h1 : makeMovesAux apply z 0 ms = (zr, k, some e)) :
    makeMoves apply z ms = (upN zr k, some e) := by
  unfold makeMoves
  rw [h1]

theorem DCFkids_iff (cs : List (VariationTree Fen Move)) :
    DCFkids cs ↔ ∀ c ∈ cs, DCF c := by
  induction cs with
  | nil => simp [DCFkids]
  | cons c rest ih => simp [DCFkids, ih]

theorem DCF_mk (f : Fen) (mi : Option Move) (cs : List (VariationTree Fen Move)) :
    DCF (VariationTree.mk f mi cs) ↔
      ((cs.map VariationTree.fen).Pairwise (· ≠ ·)) ∧ ∀ c ∈ cs, DCF c := by
  rw [DCF, DCFkids_iff]

theorem DCF_zipUp1_mem {cf : Fen} {cmi : Option Move}
    {l r : List (VariationTree Fen Move)} {t : VariationTree Fen Move}
    (ht : DCF t)
    (hp : ((l.map VariationTree.fen ++ t.fen :: r.map VariationTree.fen).Pairwise (· ≠ ·)))
    (hl : ∀ x ∈ l, DCF x) (hr : ∀ x ∈ r, DCF x) :
    DCF (zipUp1 ⟨cf, cmi, .mem l r⟩ t) := by
  rw [zipUp1]
  rw [DCF_mk]
  constructor
  · simpa using hp
  · intro c hc
    rcases List.mem_append.mp hc with hc | hc
    · exact hl c hc
    · rcases List.mem_cons.mp hc with hc | hc
      · subst hc; exact ht
      · exact hr c hc

theorem DCF_rootOf_of_inv :
    ∀ (cr : List (Crumb Fen Move)) (t : VariationTree Fen Move),
    DCF t → CtxDCF cr t.fen → DCF (rootOf ⟨t, cr⟩) := by
  intro cr
  induction cr with
  | nil => intro t ht _; exact ht
  | cons c cr ih =>
    intro t ht hctx
    rw [rootOf_cons]
    match c with
    | ⟨cf, cmi, .mem l r⟩ =>
      obtain ⟨hp, hl, hr, htail⟩ := hctx
      exact ih _ (DCF_zipUp1_mem ht hp hl hr) htail
    | ⟨cf, cmi, .det all⟩ =>
      obtain ⟨hp, hall, htail⟩ := hctx
      refine ih _ ?_ htail
      rw [zipUp1, DCF_mk]
      exact ⟨hp, hall⟩

theorem InvDCF_up {t : VariationTree Fen Move} {c : Crumb Fen Move}
    {cr : List (Crumb Fen Move)} (h : InvDCF ⟨t, c :: cr⟩) :
    InvDCF ⟨zipUp1 c t, cr⟩ := by
  obtain ⟨ht, hctx⟩ := h
  match c with
  | ⟨cf, cmi, .mem l r⟩ =>
    obtain ⟨hp, hl, hr, htail⟩ := hctx
    exact ⟨DCF_zipUp1_mem ht hp hl hr, htail⟩
  | ⟨cf, cmi, .det all⟩ =>
    obtain ⟨hp, hall, htail⟩ := hctx
    refine ⟨?_, htail⟩
    rw [zipUp1, DCF_mk]
    exact ⟨hp, hall⟩

theorem InvDCF_upN {z : Cursor Fen Move} (n : Nat) (h : InvDCF z) : InvDCF (upN z n) := by
  induction n generalizing z with
  | zero => exact h
  | succ n ih =>
    match z with
    | ⟨t, []⟩ => exact h
    | ⟨t, c :: rest⟩ =>
      show InvDCF (upN ⟨zipUp1 c t, rest⟩ n)
      exact ih (InvDCF_up h)

theorem InvDCF_rootCursor {z : Cursor Fen Move} (h : InvDCF z) :
    InvDCF ⟨rootOf z, []⟩ := by
  obtain ⟨t, cr⟩ := z
  exact ⟨DCF_rootOf_of_inv cr t h.1 h.2, trivial⟩

theorem InvDCF_downFirst {f : Fen} {mi : Option Move} {c : VariationTree Fen Move}
    {cs : List (VariationTree Fen Move)} {cr : List (Crumb Fen Move)}
    (h : InvDCF ⟨.mk f mi (c :: cs), cr⟩) :
    InvDCF ⟨c, ⟨f, mi, .mem [] cs⟩ :: cr⟩ := by
  obtain ⟨ht, hctx⟩ := h
  rw [DCF_mk] at ht
  refine ⟨ht.2 c (by simp), ?_⟩
  show CtxDCF (⟨f, mi, .mem [] cs⟩ :: cr) c.fen
  simp only [CtxDCF]
  exact ⟨by simpa using ht.1, by simp, fun x hx => ht.2 x (by simp [hx]), hctx⟩

theorem InvDCF_undoMove {z : Cursor Fen Move} (h : InvDCF z) : InvDCF (undoMove z).1 := by
  match z with
  | ⟨t, []⟩ => exact h
  | ⟨t, c :: rest⟩ => exact InvDCF_up h

theorem InvDCF_redoMove {z : Cursor Fen Move} (h : InvDCF z) : InvDCF (redoMove z).1 := by
  match z with
  | ⟨.mk f mi [], cr⟩ => exact h
  | ⟨.mk f mi (c :: cs), cr⟩ => exact InvDCF_downFirst h

theorem InvDCF_goToStart {z : Cursor Fen Move} (h : InvDCF z) : InvDCF (goToStart z) := by
  rw [show goToStart z = getTopVariation z from rfl, getTopVariation_eq]
  exact InvDCF_rootCursor h

theorem InvDCF_goToEnd {z : Cursor Fen Move} (h : InvDCF z) : InvDCF (goToEnd z) := by
  rw [show goToEnd z = getBottomVariation z from rfl]
  match z with
  | ⟨.mk f mi [], cr⟩ =>
    rw [show getBottomVariation ⟨VariationTree.mk f mi [], cr⟩ =
      ⟨VariationTree.mk f mi [], cr⟩ by simp [getBottomVariation]]
    exact h
  | ⟨.mk f mi (c :: cs), cr⟩ =>
    rw [show getBottomVariation ⟨VariationTree.mk f mi (c :: cs), cr⟩ =
      getBottomVariation ⟨c, ⟨f, mi, .mem [] cs⟩ :: cr⟩ by simp [getBottomVariation]]
    have := @InvDCF_goToEnd ⟨c, ⟨f, mi, .mem [] cs⟩ :: cr⟩ (InvDCF_downFirst h)
    rwa [show goToEnd ⟨c, (⟨f, mi, .mem [] cs⟩ : Crumb Fen Move) :: cr⟩ =
      getBottomVariation ⟨c, ⟨f, mi, .mem [] cs⟩ :: cr⟩ from rfl] at this
termination_by sizeOf z.focus

theorem InvDCF_reset (z : Cursor Fen Move) (f : Fen) : InvDCF (resetToFen z f) := by
  exact ⟨by rw [resetToFen, DCF_mk]; simp, trivial⟩

theorem InvDCF_leafChild {pf : Fen} {pmi : Option Move}
    {cs : List (VariationTree Fen Move)} {cr : List (Crumb Fen Move)}
    {f : Fen} {m : Move}
    (h : InvDCF ⟨.mk pf pmi cs, cr⟩) (hall : ∀ c ∈ cs, c.fen ≠ f) :
    InvDCF ⟨.mk f (some m) [], ⟨pf, pmi, .mem cs []⟩ :: cr⟩ := by
  obtain ⟨ht, hctx⟩ := h
  rw [DCF_mk] at ht
  refine ⟨by rw [DCF_mk]; simp, ?_⟩
  show CtxDCF (⟨pf, pmi, .mem cs []⟩ :: cr) f
  simp only [CtxDCF]
  refine ⟨?_, fun x hx => ht.2 x hx, by simp, hctx⟩
  simp only [List.map_nil]
  rw [List.pairwise_append]
  refine ⟨ht.1, by simp, ?_⟩
  intro a ha b hb
  simp at hb
  subst hb
  obtain ⟨x, hx, hxf⟩ := List.mem_map.mp ha
  rw [← hxf]
  exact hall x hx

theorem InvDCF_dedupeChild {pf : Fen} {pmi : Option Move}
    {cs l r : List (VariationTree Fen Move)} {c : VariationTree Fen Move}
    {cr : List (Crumb Fen Move)}
    (h : InvDCF ⟨.mk pf pmi cs, cr⟩) (hcs : cs = l ++ c :: r) :
    InvDCF ⟨c, ⟨pf, pmi, .mem l r⟩ :: cr⟩ := by
  obtain ⟨ht, hctx⟩ := h
  rw [DCF_mk] at ht
  subst hcs
  refine ⟨ht.2 c (by simp), ?_⟩
  show CtxDCF (⟨pf, pmi, .mem l r⟩ :: cr) c.fen
  simp only [CtxDCF]
  exact ⟨by simpa using ht.1, fun x hx => ht.2 x (by simp [hx]),
    fun x hx => ht.2 x (by simp [hx]), hctx⟩

theorem InvDCF_twin {pf : Fen} {pmi : Option Move}
    {cs : List (VariationTree Fen Move)} {cr : List (Crumb Fen Move)}
    {f : Fen} {m : Move}
    (h : InvDCF ⟨.mk pf pmi cs, cr⟩) :
    InvDCF ⟨.mk f (some m) [], ⟨pf, pmi, .det cs⟩ :: cr⟩ := by
  obtain ⟨ht, hctx⟩ := h
  rw [DCF_mk] at ht
  refine ⟨by rw [DCF_mk]; simp, ?_⟩
  show CtxDCF (⟨pf, pmi, .det cs⟩ :: cr) f
  simp only [CtxDCF]
  exact ⟨ht.1, fun x hx => ht.2 x hx, hctx⟩

theorem InvDCF_makeMove [DecidableEq Fen] (apply : Fen → Move → Option Fen)
    (editApply : Fen → Move → Fen) (editingMode : Bool) {z : Cursor Fen Move} (m : Move)
    (h : InvDCF z) : InvDCF (makeMoveStep apply editApply editingMode z m) := by
  obtain ⟨⟨pf, pmi, cs⟩, cr⟩ := z
  cases editingMode with
  | true =>
    rw [makeMoveStep, makeMove_edit]
    exact ⟨by rw [DCF_mk]; simp, trivial⟩
  | false =>
    rw [makeMoveStep]
    cases hap : apply pf m with
    | none =>
      rw [makeMove_err apply editApply pf pmi cs cr m hap]
      exact h
    | some f =>
      by_cases h0 : cs.length = 0
      · have hcs : cs = [] := List.length_eq_zero.mp h0
        subst hcs
        rw [makeMove_empty apply editApply pf pmi cr m f hap]
        exact InvDCF_leafChild h (by simp)
      · by_cases hall : ∀ c ∈ cs, c.fen ≠ f
        · rw [makeMove_push apply editApply pf pmi cs cr m f hap h0 hall]
          exact InvDCF_leafChild h hall
        · obtain ⟨l, c, r, hsplit⟩ := splitAtFen_isSome (exists_mem_of_not_all_ne hall)
          obtain ⟨hcs, hcf, _⟩ := splitAtFen_eq hsplit
          rw [makeMove_dup apply editApply pf pmi cs cr m f l c r hap h0 hall hsplit]
          exact InvDCF_dedupeChild h hcs

theorem InvDCF_makeMovesAux [DecidableEq Fen] (apply : Fen → Move → Option Fen) :
    ∀ (ms : List Move) (z : Cursor Fen Move) (d : Nat),
    InvDCF z → InvDCF (makeMovesAux apply z d ms).1 := by
  intro ms
  induction ms with
  | nil =>
    intro z d h
    rw [makeMovesAux_nil]
    exact h
  | cons m ms ih =>
    intro z d h
    obtain ⟨⟨pf, pmi, cs⟩, cr⟩ := z
    cases hap : apply pf m with
    | none =>
      rw [makeMovesAux_cons_err apply pf pmi cs cr d m ms hap]
      exact h
    | some f =>
      by_cases h0 : cs.length = 0
      · have hcs : cs = [] := List.length_eq_zero.mp h0
        subst hcs
        rw [makeMovesAux_cons_empty apply pf pmi cr d m ms f hap]
        exact ih _ _ (InvDCF_leafChild h (by simp))
      · by_cases hall : ∀ c ∈ cs, c.fen ≠ f
        · rw [makeMovesAux_cons_push apply pf pmi cs cr d m ms f hap h0 hall]
          exact ih _ _ (InvDCF_leafChild h hall)
        · obtain ⟨l, c, r, hsplit⟩ := splitAtFen_isSome (exists_mem_of_not_all_ne hall)
          obtain ⟨hcs, hcf, _⟩ := splitAtFen_eq hsplit
          cases hms : ms with
          | nil =>
            rw [makeMovesAux_cons_dup_last apply pf pmi cs cr d m f l c r hap h0 hall hsplit]
            exact InvDCF_twin h
          | cons m' ms' =>
            rw [hms] at ih
            rw [makeMovesAux_cons_dup_go apply pf pmi cs cr d m (m' :: ms') f l c r hap h0
              hall hsplit rfl]
            exact ih _ _ (InvDCF_dedupeChild h hcs)

theorem InvDCF_makeMoves [DecidableEq Fen] (apply : Fen → Move → Option Fen)
    (ms : List Move) {z : Cursor Fen Move} (h : InvDCF z) :
    InvDCF (makeMoves apply z ms).1 := by
  have haux := InvDCF_makeMovesAux apply ms z 0 h
  unfold makeMoves
  rcases hx : makeMovesAux apply z 0 ms with ⟨zp, dp, ep⟩
  rw [hx] at haux
  cases ep with
  | none => exact haux
  | some e => exact InvDCF_upN dp haux

theorem addressOfAux_acc (cr : List (Crumb Fen Move)) :
    ∀ acc, addressOfAux cr acc = (addressOfAux cr []).map (· ++ acc) := by
  induction cr with
  | nil => intro acc; simp [addressOfAux]
  | cons c rest ih =>
    intro acc
    match c with
    | ⟨cf, cmi, .mem l r⟩ =>
      show addressOfAux rest (l.length :: acc) =
        (addressOfAux rest [l.length]).map (· ++ acc)
      rw [ih (l.length :: acc), ih [l.length]]
      cases addressOfAux rest [] with
      | none => rfl
      | some q => simp
    | ⟨cf, cmi, .det all⟩ => rfl

theorem get_append_middle (l r : List (VariationTree Fen Move))
    (t : VariationTree Fen Move) (h : l.length < (l ++ t :: r).length) :
    (l ++ t :: r).get ⟨l.length, h⟩ = t := by
  rw [List.get_eq_getElem, List.getElem_append_right (Nat.le_refl l.length)]
  simp

theorem take_append_middle (l r : List (VariationTree Fen Move))
    (t : VariationTree Fen Move) : (l ++ t :: r).take l.length = l :=
  List.take_left l (t :: r)

theorem drop_append_middle :
    ∀ (l : List (VariationTree Fen Move)) (r : List (VariationTree Fen Move))
    (t : VariationTree Fen Move), (l ++ t :: r).drop (l.length + 1) = r := by
  intro l
  induction l with
  | nil => intro r t; simp
  | cons a l ih => intro r t; simp

theorem cursorAtPathAux_rootOf :
    ∀ (cr : List (Crumb Fen Move)) (t : VariationTree Fen Move) (q rest : List Nat),
    addressOfAux cr [] = some q →
    cursorAtPathAux ⟨rootOf ⟨t, cr⟩, []⟩ (q ++ rest) = cursorAtPathAux ⟨t, cr⟩ rest := by
  intro cr
  induction cr with
  | nil =>
    intro t q rest h
    cases h
    rfl
  | cons c cr ih =>
    intro t q rest h
    match c with
    | ⟨cf, cmi, .mem l r⟩ =>
      rw [show addressOfAux (⟨cf, cmi, .mem l r⟩ :: cr) [] =
        addressOfAux cr [l.length] from rfl, addressOfAux_acc] at h
      cases hq : addressOfAux cr [] with
      | none => rw [hq] at h; simp at h
      | some q' =>
        rw [hq] at h
        simp at h
        subst h
        rw [rootOf_cons]
        rw [show (q' ++ [l.length]) ++ rest = q' ++ (l.length :: rest) by simp]
        rw [ih (zipUp1 ⟨cf, cmi, .mem l r⟩ t) q' (l.length :: rest) hq]
        have hlen : l.length < (l ++ t :: r).length := by
          rw [List.length_append]
          simp
        show cursorAtPathAux ⟨VariationTree.mk cf cmi (l ++ t :: r), cr⟩ (l.length :: rest) = _
        rw [show cursorAtPathAux ⟨VariationTree.mk cf cmi (l ++ t :: r), cr⟩
            (l.length :: rest) =
          cursorAtPathAux ⟨(l ++ t :: r).get ⟨l.length, hlen⟩,
            ⟨cf, cmi, .mem ((l ++ t :: r).take l.length)
              ((l ++ t :: r).drop (l.length + 1))⟩ :: cr⟩ rest by
          simp only [cursorAtPathAux, VariationTree.children_mk, hlen, dif_pos]]
        rw [get_append_middle, take_append_middle, drop_append_middle]
    | ⟨cf, cmi, .det all⟩ =>
      exact Option.noConfusion h

theorem getNodeAtPath_of_cursor :
    ∀ (p : List Nat) (z z' : Cursor Fen Move),
    cursorAtPathAux z p = some z' → getNodeAtPath z.focus p = some z'.focus := by
  intro p
  induction p with
  | nil =>
    intro z z' h
    simp only [cursorAtPathAux] at h
    cases h
    rfl
  | cons i p ih =>
    intro z z' h
    obtain ⟨⟨f, mi, cs⟩, cr⟩ := z
    simp only [cursorAtPathAux] at h
    by_cases hlt : i < cs.length
    · rw [dif_pos hlt] at h
      have := ih _ _ h
      simp only [getNodeAtPath, VariationTree.children_mk, List.get?_eq_getElem?,
        List.getElem?_eq_getElem hlt]
      simpa using this
    · rw [dif_neg hlt] at h
      exact absurd h (by simp)

/-- C6: for every node of the tree — every attached cursor position, i.e.
every cursor with an address — go_to_address applied to address_of returns
exactly that node: the same subtree at the same location; consequently two
nodes of the same tree with equal addresses are the same node (and the
converse holds because address_of is a function). -/
theorem claim_C6 (z : Cursor Fen Move) (p : List Nat) (h : addressOf z = some p) :
    cursorAtPath (rootOf z) p = some z ∧
    getNodeAtPath (rootOf z) p = some z.focus ∧
    ∀ z₂ : Cursor Fen Move, rootOf z₂ = rootOf z → addressOf z₂ = some p → z₂ = z := by
  have hmain : cursorAtPath (rootOf z) p = some z := by
    obtain ⟨t, cr⟩ := z
    rw [addressOf] at h
    have := cursorAtPathAux_rootOf cr t p [] h
    rw [List.append_nil] at this
    rw [cursorAtPath, this]
    rfl
  refine ⟨hmain, ?_, ?_⟩
  · have := getNodeAtPath_of_cursor p ⟨rootOf z, []⟩ z hmain
    simpa using this
  · intro z₂ hroot h₂
    have hmain₂ : cursorAtPath (rootOf z₂) p = some z₂ := by
      obtain ⟨t₂, cr₂⟩ := z₂
      rw [addressOf] at h₂
      have := cursorAtPathAux_rootOf cr₂ t₂ p [] h₂
      rw [List.append_nil] at this
      rw [cursorAtPath, this]
      rfl
    rw [hroot, hmain] at hmain₂
    exact (Option.some_injective _ hmain₂).symm

theorem TC_mk (apply : Fen → Move → Option Fen) (f : Fen) (mi : Option Move)
    (cs : List (VariationTree Fen Move)) :
    TC apply (VariationTree.mk f mi cs) ↔ TCkids apply f cs := by
  rw [TC]

theorem TCkids_iff (apply : Fen → Move → Option Fen) (f : Fen)
    (cs : List (VariationTree Fen Move)) :
    TCkids apply f cs ↔ ∀ c ∈ cs, MC apply f c ∧ TC apply c := by
  induction cs with
  | nil => simp [TCkids]
  | cons c rest ih =>
    rw [TCkids, ih]
    simp only [List.mem_cons]
    constructor
    · rintro ⟨h1, h2, h3⟩ x hx
      rcases hx with hx | hx
      · subst hx; exact ⟨h1, h2⟩
      · exact h3 x hx
    · intro h
      exact ⟨(h c (Or.inl rfl)).1, (h c (Or.inl rfl)).2, fun x hx => h x (Or.inr hx)⟩

theorem parseLine_end_nil (apply : Fen → Move → Option Fen) (f : Fen) (fuel : Nat) :
    parseLine apply f ([] : List (Tok Move)) (fuel + 1) = some ([], []) := by
  rw [parseLine]

theorem parseLine_end_rparen (apply : Fen → Move → Option Fen) (f : Fen)
    (toks : List (Tok Move)) (fuel : Nat) :
    parseLine apply f (.rparen :: toks) (fuel + 1) = some ([], .rparen :: toks) := by
  rw [parseLine]

theorem parseLine_step (apply : Fen → Move → Option Fen) (f : Fen) (m : Move)
    (toks : List (Tok Move)) (fuel : Nat) (f' : Fen)
    (vars kids : List (VariationTree Fen Move)) (toks' toks'' : List (Tok Move))
    (hap : apply f m = some f')
    (hvars : parseVars apply f toks fuel = some (vars, toks'))
    (hline : parseLine apply f' toks' fuel = some (kids, toks'')) :
    parseLine apply f (Tok.mv m :: toks) (fuel + 1) =
      some (VariationTree.mk f' (some m) kids :: vars, toks'') := by
  rw [parseLine]
  simp only [hap, hvars, hline]

theorem parseVars_stop (apply : Fen → Move → Option Fen) (f : Fen)
    (toks : List (Tok Move)) (fuel : Nat) (h : headNotL toks) :
    parseVars apply f toks (fuel + 1) = some ([], toks) := by
  match toks, h with
  | [], _ => rw [parseVars]; simp
  | .mv m :: toks, _ => rw [parseVars]; simp
  | .rparen :: toks, _ => rw [parseVars]; simp

theorem parseVars_step (apply : Fen → Move → Option Fen) (f : Fen) (m : Move)
    (toks2 : List (Tok Move)) (fuel : Nat) (f' : Fen)
    (kids : List (VariationTree Fen Move)) (toks4 : List (Tok Move))
    (vars : List (VariationTree Fen Move)) (toks5 : List (Tok Move))
    (hap : apply f m = some f')
    (hline : parseLine apply f' toks2 fuel = some (kids, Tok.rparen :: toks4))
    (hvars : parseVars apply f toks4 fuel = some (vars, toks5)) :
    parseVars apply f (Tok.lparen :: Tok.mv m :: toks2) (fuel + 1) =
      some (VariationTree.mk f' (some m) kids :: vars, toks5) := by
  rw [parseVars]
  simp only [hap, hline, hvars]

theorem headNotL_serChildren_append (apply : Fen → Move → Option Fen)
    (cf : Fen) (ccs : List (VariationTree Fen Move)) (K : List (Tok Move))
    (htc : TCkids apply cf ccs) (hK : endOK K) : headNotL (serChildren ccs ++ K) := by
  match ccs with
  | [] =>
    rw [serChildren, List.nil_append]
    match K, hK with
    | [], _ => trivial
    | .rparen :: toks, _ => trivial
  | c' :: rest =>
    rw [TCkids] at htc
    obtain ⟨⟨m, hm, _⟩, _, _⟩ := htc
    rw [serChildren, hm, serMove]
    trivial

theorem serChildren_cons_len (c : VariationTree Fen Move)
    (rest : List (VariationTree Fen Move)) (m : Move) (hm : c.moveIn = some m) :
    (serChildren (c :: rest)).length =
      1 + (serVars rest).length + (serLine c).length := by
  rw [serChildren, hm]
  simp [serMove, List.length_append]
  omega

theorem serVars_cons_len (c : VariationTree Fen Move)
    (rest : List (VariationTree Fen Move)) (m : Move) (hm : c.moveIn = some m) :
    (serVars (c :: rest)).length =
      3 + (serLine c).length + (serVars rest).length := by
  rw [serVars, hm]
  simp [serMove, List.length_append]
  omega

theorem serChildren_length_pos (c : VariationTree Fen Move)
    (rest : List (VariationTree Fen Move)) (m : Move) (hm : c.moveIn = some m) :
    (serChildren (c :: rest)).length =
      1 + (serVars rest).length + (serChildren c.children).length := by
  rw [serChildren_cons_len c rest m hm]
  obtain ⟨cf, cmi, ccs⟩ := c
  rw [serLine]
  rfl

/-- Round trip of the codec, fuel-indexed: parsing the serialization of an
oracle-consistent forest in front of a legitimate continuation returns
exactly that forest and the continuation. -/
theorem parse_serChildren (apply : Fen → Move → Option Fen) :
    ∀ fuel : Nat,
    (∀ (f : Fen) (cs : List (VariationTree Fen Move)) (K : List (Tok Move)),
      TCkids apply f cs → endOK K → (serChildren cs).length + 1 ≤ fuel →
      parseLine apply f (serChildren cs ++ K) fuel = some (cs, K)) ∧
    (∀ (f : Fen) (sibs : List (VariationTree Fen Move)) (K : List (Tok Move)),
      TCkids apply f sibs → headNotL K → (serVars sibs).length + 1 ≤ fuel →
      parseVars apply f (serVars sibs ++ K) fuel = some (sibs, K)) := by
  intro fuel
  induction fuel with
  | zero =>
    constructor
    · intro f cs K _ _ hle
      omega
    · intro f sibs K _ _ hle
      omega
  | succ fuel ih =>
    obtain ⟨ihL, ihV⟩ := ih
    constructor
    · intro f cs K htc hK hle
      match cs with
      | [] =>
        rw [serChildren, List.nil_append]
        match K, hK with
        | [], _ => exact parseLine_end_nil apply f fuel
        | .rparen :: toks, _ => exact parseLine_end_rparen apply f toks fuel
      | c :: rest =>
        rw [TCkids] at htc
        obtain ⟨⟨m, hm, hap⟩, htcc, htcr⟩ := htc
        obtain ⟨cf, cmi, ccs⟩ := c
        simp only [VariationTree.moveIn_mk] at hm
        simp only [VariationTree.fen_mk] at hap
        subst hm
        rw [TC_mk] at htcc
        have hlen := serChildren_length_pos (VariationTree.mk cf (some m) ccs) rest m rfl
        simp only [VariationTree.children_mk] at hlen
        have hser : serChildren (VariationTree.mk cf (some m) ccs :: rest) ++ K =
            Tok.mv m :: (serVars rest ++ (serChildren ccs ++ K)) := by
          rw [serChildren, serLine]
          simp [serMove]
        rw [hser]
        exact parseLine_step apply f m _ fuel cf rest ccs _ K hap
          (ihV f rest (serChildren ccs ++ K) htcr
            (headNotL_serChildren_append apply cf ccs K htcc hK) (by omega))
          (ihL cf ccs K htcc hK (by omega))
    · intro f sibs K htc hK hle
      match sibs with
      | [] =>
        rw [serVars, List.nil_append]
        exact parseVars_stop apply f K fuel hK
      | c :: rest =>
        rw [TCkids] at htc
        obtain ⟨⟨m, hm, hap⟩, htcc, htcr⟩ := htc
        obtain ⟨cf, cmi, ccs⟩ := c
        simp only [VariationTree.moveIn_mk] at hm
        simp only [VariationTree.fen_mk] at hap
        subst hm
        rw [TC_mk] at htcc
        have hlen := serVars_cons_len (VariationTree.mk cf (some m) ccs) rest m rfl
        have hlin : (serLine (VariationTree.mk cf (some m) ccs)).length =
            (serChildren ccs).length := by
          rw [serLine]
        have hser : serVars (VariationTree.mk cf (some m) ccs :: rest) ++ K =
            Tok.lparen :: Tok.mv m ::
              (serChildren ccs ++ (Tok.rparen :: (serVars rest ++ K))) := by
          rw [serVars, serLine]
          simp [serMove]
        rw [hser]
        exact parseVars_step apply f m _ fuel cf ccs _ rest K hap
          (by
            rw [show serChildren ccs ++ (Tok.rparen :: (serVars rest ++ K)) =
              serChildren ccs ++ ((Tok.rparen :: (serVars rest ++ K)) : List (Tok Move)) from
              rfl]
            exact ihL cf ccs (Tok.rparen :: (serVars rest ++ K)) htcc (by trivial)
              (by omega))
          (ihV f rest K htcr hK (by omega))

/-- Round trip at the tree level: parsing the full-tree serialization of an
oracle-consistent tree whose root carries no move yields the tree back. -/
theorem parsePGN_getPGN (apply : Fen → Move → Option Fen) (t : VariationTree Fen Move)
    (htc : TC apply t) (hroot : t.moveIn = none) :
    parsePGN apply t.fen (getPGN t) = some t := by
  obtain ⟨f, mi, cs⟩ := t
  simp only [VariationTree.moveIn_mk] at hroot
  subst hroot
  rw [TC_mk] at htc
  simp only [getPGN, serLine, parsePGN, VariationTree.fen_mk]
  have h := (parse_serChildren apply ((serChildren cs).length + 1)).1 f cs [] htc
    (by trivial) (by omega)
  rw [List.append_nil] at h
  rw [h]

theorem TC_zipUp1_mem {apply : Fen → Move → Option Fen} {cf : Fen} {cmi : Option Move}
    {l r : List (VariationTree Fen Move)} {t : VariationTree Fen Move}
    (ht : TC apply t) (hmc : ∃ m, t.moveIn = some m ∧ apply cf m = some t.fen)
    (hl : ∀ x ∈ l, MC apply cf x ∧ TC apply x)
    (hr : ∀ x ∈ r, MC apply cf x ∧ TC apply x) :
    TC apply (zipUp1 ⟨cf, cmi, .mem l r⟩ t) := by
  rw [zipUp1]
  rw [TC_mk, TCkids_iff]
  intro c hc
  rcases List.mem_append.mp hc with hc | hc
  · exact hl c hc
  · rcases List.mem_cons.mp hc with hc | hc
    · subst hc
      exact ⟨hmc, ht⟩
    · exact hr c hc

theorem TC_rootOf_of_inv (apply : Fen → Move → Option Fen) :
    ∀ (cr : List (Crumb Fen Move)) (t : VariationTree Fen Move),
    TC apply t → CtxTC apply cr t.fen t.moveIn → TC apply (rootOf ⟨t, cr⟩) := by
  intro cr
  induction cr with
  | nil => intro t ht _; exact ht
  | cons c cr ih =>
    intro t ht hctx
    rw [rootOf_cons]
    match c with
    | ⟨cf, cmi, .mem l r⟩ =>
      obtain ⟨hmc, hl, hr, htail⟩ := hctx
      exact ih _ (TC_zipUp1_mem ht hmc hl hr) htail
    | ⟨cf, cmi, .det all⟩ =>
      obtain ⟨hall, htail⟩ := hctx
      refine ih _ ?_ htail
      rw [zipUp1, TC_mk, TCkids_iff]
      exact hall

theorem InvTC_up {apply : Fen → Move → Option Fen} {t : VariationTree Fen Move}
    {c : Crumb Fen Move} {cr : List (Crumb Fen Move)}
    (h : InvTC apply ⟨t, c :: cr⟩) : InvTC apply ⟨zipUp1 c t, cr⟩ := by
  obtain ⟨ht, hctx⟩ := h
  match c with
  | ⟨cf, cmi, .mem l r⟩ =>
    obtain ⟨hmc, hl, hr, htail⟩ := hctx
    exact ⟨TC_zipUp1_mem ht hmc hl hr, htail⟩
  | ⟨cf, cmi, .det all⟩ =>
    obtain ⟨hall, htail⟩ := hctx
    refine ⟨?_, htail⟩
    rw [zipUp1, TC_mk, TCkids_iff]
    exact hall

theorem InvTC_upN {apply : Fen → Move → Option Fen} {z : Cursor Fen Move} (n : Nat)
    (h : InvTC apply z) : InvTC apply (upN z n) := by
  induction n generalizing z with
  | zero => exact h
  | succ n ih =>
    match z with
    | ⟨t, []⟩ => exact h
    | ⟨t, c :: rest⟩ =>
      show InvTC apply (upN ⟨zipUp1 c t, rest⟩ n)
      exact ih (InvTC_up h)

theorem InvTC_leafChild {apply : Fen → Move → Option Fen} {pf : Fen} {pmi : Option Move}
    {cs : List (VariationTree Fen Move)} {cr : List (Crumb Fen Move)} {f : Fen} {m : Move}
    (h : InvTC apply ⟨.mk pf pmi cs, cr⟩) (hap : apply pf m = some f) :
    InvTC apply ⟨.mk f (some m) [], ⟨pf, pmi, .mem cs []⟩ :: cr⟩ := by
  obtain ⟨ht, hctx⟩ := h
  rw [TC_mk, TCkids_iff] at ht
  refine ⟨by rw [TC_mk, TCkids]; trivial, ?_⟩
  show CtxTC apply (⟨pf, pmi, .mem cs []⟩ :: cr) f (some m)
  simp only [CtxTC]
  exact ⟨⟨m, rfl, hap⟩, fun x hx => ht x hx, by simp, hctx⟩

theorem InvTC_dedupeChild {apply : Fen → Move → Option Fen} {pf : Fen} {pmi : Option Move}
    {cs l r : List (VariationTree Fen Move)} {c : VariationTree Fen Move}
    {cr : List (Crumb Fen Move)}
    (h : InvTC apply ⟨.mk pf pmi cs, cr⟩) (hcs : cs = l ++ c :: r) :
    InvTC apply ⟨c, ⟨pf, pmi, .mem l r⟩ :: cr⟩ := by
  obtain ⟨ht, hctx⟩ := h
  rw [TC_mk, TCkids_iff] at ht
  subst hcs
  refine ⟨(ht c (by simp)).2, ?_⟩
  show CtxTC apply (⟨pf, pmi, .mem l r⟩ :: cr) c.fen c.moveIn
  simp only [CtxTC]
  exact ⟨(ht c (by simp)).1, fun x hx => ht x (by simp [hx]),
    fun x hx => ht x (by simp [hx]), hctx⟩

theorem InvTC_twin {apply : Fen → Move → Option Fen} {pf : Fen} {pmi : Option Move}
    {cs : List (VariationTree Fen Move)} {cr : List (Crumb Fen Move)} {f : Fen} {m : Move}
    (h : InvTC apply ⟨.mk pf pmi cs, cr⟩) :
    InvTC apply ⟨.mk f (some m) [], ⟨pf, pmi, .det cs⟩ :: cr⟩ := by
  obtain ⟨ht, hctx⟩ := h
  rw [TC_mk, TCkids_iff] at ht
  refine ⟨by rw [TC_mk, TCkids]; trivial, ?_⟩
  show CtxTC apply (⟨pf, pmi, .det cs⟩ :: cr) f (some m)
  simp only [CtxTC]
  exact ⟨fun x hx => ht x hx, hctx⟩

theorem InvTC_makeMove [DecidableEq Fen] (apply : Fen → Move → Option Fen)
    (editApply : Fen → Move → Fen) {z : Cursor Fen Move} (m : Move)
    (h : InvTC apply z) : InvTC apply (makeMoveStep apply editApply false z m) := by
  obtain ⟨⟨pf, pmi, cs⟩, cr⟩ := z
  rw [makeMoveStep]
  cases hap : apply pf m with
  | none =>
    rw [makeMove_err apply editApply pf pmi cs cr m hap]
    exact h
  | some f =>
    by_cases h0 : cs.length = 0
    · have hcs : cs = [] := List.length_eq_zero.mp h0
      subst hcs
      rw [makeMove_empty apply editApply pf pmi cr m f hap]
      exact InvTC_leafChild h hap
    · by_cases hall : ∀ c ∈ cs, c.fen ≠ f
      · rw [makeMove_push apply editApply pf pmi cs cr m f hap h0 hall]
        exact InvTC_leafChild h hap
      · obtain ⟨l, c, r, hsplit⟩ := splitAtFen_isSome (exists_mem_of_not_all_ne hall)
        obtain ⟨hcs, hcf, _⟩ := splitAtFen_eq hsplit
        rw [makeMove_dup apply editApply pf pmi cs cr m f l c r hap h0 hall hsplit]
        exact InvTC_dedupeChild h hcs

theorem InvTC_makeMovesAux [DecidableEq Fen] (apply : Fen → Move → Option Fen) :
    ∀ (ms : List Move) (z : Cursor Fen Move) (d : Nat),
    InvTC apply z → InvTC apply (makeMovesAux apply z d ms).1 := by
  intro ms
  induction ms with
  | nil =>
    intro z d h
    rw [makeMovesAux_nil]
    exact h
  | cons m ms ih =>
    intro z d h
    obtain ⟨⟨pf, pmi, cs⟩, cr⟩ := z
    cases hap : apply pf m with
    | none =>
      rw [makeMovesAux_cons_err apply pf pmi cs cr d m ms hap]
      exact h
    | some f =>
      by_cases h0 : cs.length = 0
      · have hcs : cs = [] := List.length_eq_zero.mp h0
        subst hcs
        rw [makeMovesAux_cons_empty apply pf pmi cr d m ms f hap]
        exact ih _ _ (InvTC_leafChild h hap)
      · by_cases hall : ∀ c ∈ cs, c.fen ≠ f
        · rw [makeMovesAux_cons_push apply pf pmi cs cr d m ms f hap h0 hall]
          exact ih _ _ (InvTC_leafChild h hap)
        · obtain ⟨l, c, r, hsplit⟩ := splitAtFen_isSome (exists_mem_of_not_all_ne hall)
          obtain ⟨hcs, hcf, _⟩ := splitAtFen_eq hsplit
          cases hms : ms with
          | nil =>
            rw [makeMovesAux_cons_dup_last apply pf pmi cs cr d m f l c r hap h0 hall hsplit]
            exact InvTC_twin h
          | cons m' ms' =>
            rw [hms] at ih
            rw [makeMovesAux_cons_dup_go apply pf pmi cs cr d m (m' :: ms') f l c r hap h0
              hall hsplit rfl]
            exact ih _ _ (InvTC_dedupeChild h hcs)

theorem InvTC_makeMoves [DecidableEq Fen] (apply : Fen → Move → Option Fen)
    (ms : List Move) {z : Cursor Fen Move} (h : InvTC apply z) :
    InvTC apply (makeMoves apply z ms).1 := by
  have haux := InvTC_makeMovesAux apply ms z 0 h
  unfold makeMoves
  rcases hx : makeMovesAux apply z 0 ms with ⟨zp, dp, ep⟩
  rw [hx] at haux
  cases ep with
  | none => exact haux
  | some e => exact InvTC_upN dp haux

/-!
## Root header preservation by the building operations -/

theorem rootOf_headerCongr :
    ∀ (cr : List (Crumb Fen Move)) (t t' : VariationTree Fen Move),
    t.fen = t'.fen → t.moveIn = t'.moveIn →
    (rootOf ⟨t, cr⟩).fen = (rootOf ⟨t', cr⟩).fen ∧
    (rootOf ⟨t, cr⟩).moveIn = (rootOf ⟨t', cr⟩).moveIn := by
  intro cr
  induction cr with
  | nil => intro t t' h1 h2; exact ⟨h1, h2⟩
  | cons c cr ih =>
    intro t t' h1 h2
    rw [rootOf_cons, rootOf_cons]
    apply ih
    · obtain ⟨cf, cmi, sib⟩ := c
      cases sib <;> rfl
    · obtain ⟨cf, cmi, sib⟩ := c
      cases sib <;> rfl

/-- Root header (`fen`, `moveIn`) of the state after the loop equals that
before: insertions happen strictly below the root, and the detached-twin
case leaves the root entirely unchanged. -/
theorem rootHeader_makeMovesAux [DecidableEq Fen] (apply : Fen → Move → Option Fen) :
    ∀ (ms : List Move) (z : Cursor Fen Move) (d : Nat),
    (rootOf (makeMovesAux apply z d ms).1).fen = (rootOf z).fen ∧
    (rootOf (makeMovesAux apply z d ms).1).moveIn = (rootOf z).moveIn := by
  intro ms
  induction ms with
  | nil =>
    intro z d
    rw [makeMovesAux_nil]
    exact ⟨rfl, rfl⟩
  | cons m ms ih =>
    intro z d
    obtain ⟨⟨pf, pmi, cs⟩, cr⟩ := z
    cases hap : apply pf m with
    | none =>
      rw [makeMovesAux_cons_err apply pf pmi cs cr d m ms hap]
      exact ⟨rfl, rfl⟩
    | some f =>
      by_cases h0 : cs.length = 0
      · have hcs : cs = [] := List.length_eq_zero.mp h0
        subst hcs
        rw [makeMovesAux_cons_empty apply pf pmi cr d m ms f hap]
        have h1 := ih ⟨.mk f (some m) [], ⟨pf, pmi, .mem [] []⟩ :: cr⟩ (d + 1)
        have h2 := rootOf_headerCongr cr
          (zipUp1 ⟨pf, pmi, .mem [] []⟩ (.mk f (some m) []))
          (VariationTree.mk pf pmi []) rfl rfl
        rw [rootOf_cons] at h1
        exact ⟨h1.1.trans h2.1, h1.2.trans h2.2⟩
      · by_cases hall : ∀ c ∈ cs, c.fen ≠ f
        · rw [makeMovesAux_cons_push apply pf pmi cs cr d m ms f hap h0 hall]
          have h1 := ih ⟨.mk f (some m) [], ⟨pf, pmi, .mem cs []⟩ :: cr⟩ (d + 1)
          have h2 := rootOf_headerCongr cr
            (zipUp1 ⟨pf, pmi, .mem cs []⟩ (.mk f (some m) []))
            (VariationTree.mk pf pmi cs) rfl rfl
          rw [rootOf_cons] at h1
          exact ⟨h1.1.trans h2.1, h1.2.trans h2.2⟩
        · obtain ⟨l, c, r, hsplit⟩ := splitAtFen_isSome (exists_mem_of_not_all_ne hall)
          obtain ⟨hcs, hcf, _⟩ := splitAtFen_eq hsplit
          cases hms : ms with
          | nil =>
            rw [makeMovesAux_cons_dup_last apply pf pmi cs cr d m f l c r hap h0 hall hsplit]
            have h2 := rootOf_headerCongr cr
              (zipUp1 ⟨pf, pmi, .det cs⟩ (.mk f (some m) []))
              (VariationTree.mk pf pmi cs) rfl rfl
            rw [rootOf_cons]
            exact h2
          | cons m' ms' =>
            rw [hms] at ih
            rw [makeMovesAux_cons_dup_go apply pf pmi cs cr d m (m' :: ms') f l c r hap h0
              hall hsplit rfl]
            have h1 := ih ⟨c, ⟨pf, pmi, .mem l r⟩ :: cr⟩ (d + 1)
            have h2 := rootOf_headerCongr cr (zipUp1 ⟨pf, pmi, .mem l r⟩ c)
              (VariationTree.mk pf pmi cs) rfl rfl
            rw [rootOf_cons] at h1
            exact ⟨h1.1.trans h2.1, h1.2.trans h2.2⟩

theorem rootHeader_makeMoves [DecidableEq Fen] (apply : Fen → Move → Option Fen)
    (ms : List Move) (z : Cursor Fen Move) :
    (rootOf (makeMoves apply z ms).1).fen = (rootOf z).fen ∧
    (rootOf (makeMoves apply z ms).1).moveIn = (rootOf z).moveIn := by
  have haux := rootHeader_makeMovesAux apply ms z 0
  unfold makeMoves
  rcases hx : makeMovesAux apply z 0 ms with ⟨zp, dp, ep⟩
  rw [hx] at haux
  cases ep with
  | none => exact haux
  | some e =>
    rw [show ((upN zp dp, some e) : Cursor Fen Move × Option (Move × Fen)).1 =
      upN zp dp from rfl, rootOf_upN]
    exact haux

theorem rootHeader_makeMoveStep [DecidableEq Fen] (apply : Fen → Move → Option Fen)
    (editApply : Fen → Move → Fen) (z : Cursor Fen Move) (m : Move) :
    (rootOf (makeMoveStep apply editApply false z m)).fen = (rootOf z).fen ∧
    (rootOf (makeMoveStep apply editApply false z m)).moveIn = (rootOf z).moveIn := by
  obtain ⟨⟨pf, pmi, cs⟩, cr⟩ := z
  rw [makeMoveStep]
  cases hap : apply pf m with
  | none =>
    rw [makeMove_err apply editApply pf pmi cs cr m hap]
    exact ⟨rfl, rfl⟩
  | some f =>
    by_cases h0 : cs.length = 0
    · have hcs : cs = [] := List.length_eq_zero.mp h0
      subst hcs
      rw [makeMove_empty apply editApply pf pmi cr m f hap, rootOf_cons]
      exact rootOf_headerCongr cr _ (VariationTree.mk pf pmi []) rfl rfl
    · by_cases hall : ∀ c ∈ cs, c.fen ≠ f
      · rw [makeMove_push apply editApply pf pmi cs cr m f hap h0 hall, rootOf_cons]
        exact rootOf_headerCongr cr _ (VariationTree.mk pf pmi cs) rfl rfl
      · obtain ⟨l, c, r, hsplit⟩ := splitAtFen_isSome (exists_mem_of_not_all_ne hall)
        obtain ⟨hcs, hcf, _⟩ := splitAtFen_eq hsplit
        rw [makeMove_dup apply editApply pf pmi cs cr m f l c r hap h0 hall hsplit,
          rootOf_cons]
        exact rootOf_headerCongr cr _ (VariationTree.mk pf pmi cs) rfl rfl

theorem buildTree_facts [DecidableEq Fen] (apply : Fen → Move → Option Fen) (f0 : Fen)
    (ops : List (BuildOp Move)) :
    InvTC apply (buildTree apply f0 ops) ∧
    (rootOf (buildTree apply f0 ops)).fen = f0 ∧
    (rootOf (buildTree apply f0 ops)).moveIn = none := by
  rw [buildTree]
  suffices hgen : ∀ (ops : List (BuildOp Move)) (z : Cursor Fen Move), InvTC apply z →
      InvTC apply (ops.foldl (applyBuild apply) z) ∧
      (rootOf (ops.foldl (applyBuild apply) z)).fen = (rootOf z).fen ∧
      (rootOf (ops.foldl (applyBuild apply) z)).moveIn = (rootOf z).moveIn by
    have h := hgen ops ⟨.mk f0 none [], []⟩ ⟨by rw [TC_mk, TCkids]; trivial, trivial⟩
    exact ⟨h.1, h.2.1, h.2.2⟩
  intro ops
  induction ops with
  | nil => intro z h; exact ⟨h, rfl, rfl⟩
  | cons op ops ih =>
    intro z h
    rw [List.foldl_cons]
    cases op with
    | one m =>
      have h1 := ih (makeMoveStep apply (fun f _ => f) false z m)
        (InvTC_makeMove apply (fun f _ => f) m h)
      have h2 := rootHeader_makeMoveStep apply (fun f _ => f) z m
      exact ⟨h1.1, h1.2.1.trans h2.1, h1.2.2.trans h2.2⟩
    | many ms =>
      have h1 := ih (makeMoves apply z ms).1 (InvTC_makeMoves apply ms h)
      have h2 := rootHeader_makeMoves apply ms z
      exact ⟨h1.1, h1.2.1.trans h2.1, h1.2.2.trans h2.2⟩

theorem TC_rootOf_inv {apply : Fen → Move → Option Fen} {z : Cursor Fen Move}
    (h : InvTC apply z) : TC apply (rootOf z) := by
  obtain ⟨t, cr⟩ := z
  exact TC_rootOf_of_inv apply cr t h.1 h.2

/-- C5: for every tree built purely through a finite sequence of
make_move/make_moves calls from a starting position, the tree is rooted at
that starting position and parsing the full-tree serialization from it
yields exactly the original tree — the same positions at the same
addresses and the same child ordering at every node (equality of the tree
values). -/
theorem claim_C5 [DecidableEq Fen] (apply : Fen → Move → Option Fen) (f0 : Fen)
    (ops : List (BuildOp Move)) :
    (rootOf (buildTree apply f0 ops)).fen = f0 ∧
    parsePGN apply f0 (getPGN (rootOf (buildTree apply f0 ops))) =
      some (rootOf (buildTree apply f0 ops)) := by
  obtain ⟨hinv, hfen, hmi⟩ := buildTree_facts apply f0 ops
  refine ⟨hfen, ?_⟩
  have h := parsePGN_getPGN apply (rootOf (buildTree apply f0 ops))
    (TC_rootOf_inv hinv) hmi
  rwa [hfen] at h

theorem InvDCF_applyOp [DecidableEq Fen] (apply : Fen → Move → Option Fen)
    (editApply : Fen → Move → Fen) {z : Cursor Fen Move} (op : TreeOp Fen Move)
    (h : InvDCF z) : InvDCF (applyOp apply editApply z op) := by
  cases op with
  | play e m => exact InvDCF_makeMove apply editApply e m h
  | playMany ms => exact InvDCF_makeMoves apply ms h
  | undo => exact InvDCF_undoMove h
  | redo => exact InvDCF_redoMove h
  | start => exact InvDCF_goToStart h
  | finish => exact InvDCF_goToEnd h
  | reset f => exact InvDCF_reset z f

theorem InvDCF_applyOps [DecidableEq Fen] (apply : Fen → Move → Option Fen)
    (editApply : Fen → Move → Fen) :
    ∀ (ops : List (TreeOp Fen Move)) (z : Cursor Fen Move),
    InvDCF z → InvDCF (applyOps apply editApply z ops) := by
  intro ops
  induction ops with
  | nil => intro z h; exact h
  | cons op ops ih =>
    intro z h
    rw [applyOps, List.foldl_cons]
    exact ih _ (InvDCF_applyOp apply editApply op h)

theorem DCF_rootOf_inv {z : Cursor Fen Move} (h : InvDCF z) : DCF (rootOf z) := by
  obtain ⟨t, cr⟩ := z
  exact DCF_rootOf_of_inv cr t h.1 h.2

/-- C4: in every tree state reachable from a fresh single-node tree by any
sequence of the public operations (make_move in either mode, make_moves,
undo, redo, go_to_start, go_to_end, reset_to_position), no node of the
tree has two children whose resulting positions are identical: the
children position lists are pairwise distinct at every node. -/
theorem claim_C4 [DecidableEq Fen] (apply : Fen → Move → Option Fen)
    (editApply : Fen → Move → Fen) (f0 : Fen) (ops : List (TreeOp Fen Move)) :
    DCF (rootOf (applyOps apply editApply ⟨.mk f0 none [], []⟩ ops)) :=
  DCF_rootOf_inv (InvDCF_applyOps apply editApply ops _ ⟨by rw [DCF_mk]; simp, trivial⟩)

/-!
## Claims C1, C3, C7, C8, C9, C10 -/

/-- C2 (amended): makeMoves applies the moves one at a time from the
current cursor, stops at the first illegal move and reports it together
with the position it was attempted against; every node created for the
legal initial segment is retained (the resulting tree equals the tree a
call with only the legal segment would produce — no rollback, and no node
is created for the illegal move or for moves after it); but the cursor does
not move: the aborted call leaves it on the node it occupied before the
call (same location, same position and move fields), not on the last legal
node, because the exception skips the final cursor update. -/
theorem claim_C2 [DecidableEq Fen] (apply : Fen → Move → Option Fen)
    (z : Cursor Fen Move) (ms1 : List Move) (m : Move) (ms2 : List Move) (f1 : Fen)
    (hleg : fenAfter apply z.focus.fen ms1 = some f1)
    (hbad : apply f1 m = none) :
    (makeMoves apply z (ms1 ++ m :: ms2)).2 = some (m, f1) ∧
    (makeMoves apply z (ms1 ++ m :: ms2)).1.crumbs = z.crumbs ∧
    (makeMoves apply z (ms1 ++ m :: ms2)).1.focus.fen = z.focus.fen ∧
    (makeMoves apply z (ms1 ++ m :: ms2)).1.focus.moveIn = z.focus.moveIn ∧
    rootOf (makeMoves apply z (ms1 ++ m :: ms2)).1 = rootOf (makeMoves apply z ms1).1 := by
  obtain ⟨zr, k, e, t', h1, h2, h3, h4⟩ := makeMovesAux_shape apply (ms1 ++ m :: ms2) z 0
  rw [Nat.zero_add] at h1
  have herr := makeMovesAux_err apply ms1 z 0 f1 m ms2 hleg hbad
  have he : e = some (m, f1) := by
    have h5 := herr.1
    rw [h1] at h5
    exact h5
  subst he
  have hmm : makeMoves apply z (ms1 ++ m :: ms2) = (upN zr k, some (m, f1)) :=
    makeMoves_of_some_err apply z _ zr k (m, f1) h1
  rw [hmm]
  refine ⟨rfl, ?_, ?_, ?_, ?_⟩
  · rw [h2]
  · rw [h2]
    exact h3
  · rw [h2]
    exact h4
  · have hprelegal := makeMovesAux_legal apply ms1 z 0 f1 hleg
    have hpre := makeMoves_of_none_err apply z ms1 hprelegal.1
    rw [hpre]
    rw [rootOf_upN]
    have h6 := herr.2
    rw [h1] at h6
    exact h6

/-- C1: when the rules oracle rejects the move against the current position,
makeMove surfaces an IllegalMove error identifying the move and the position
it was attempted against (the chess.js throw happens before any tree
mutation), and the caller-visible state — the whole tree and the cursor —
is exactly the state before the call. -/
theorem claim_C1 [DecidableEq Fen] (apply : Fen → Move → Option Fen)
    (editApply : Fen → Move → Fen) (z : Cursor Fen Move) (m : Move)
    (h : apply z.focus.fen m = none) :
    makeMove apply editApply false z m = .error (m, z.focus.fen) ∧
      makeMoveStep apply editApply false z m = z := by
  constructor
  · simp [makeMove, h]
  · simp [makeMoveStep, makeMove, h]

/-- C3: when the oracle-computed resulting position already occurs among the
current node's children, makeMove moves the cursor to the first such child
(the unique one when children carry pairwise distinct positions), creates
no node (the root tree is unchanged), and the current node's children list
— hence its child count — is unchanged. -/
theorem claim_C3 [DecidableEq Fen] (apply : Fen → Move → Option Fen)
    (editApply : Fen → Move → Fen) (z : Cursor Fen Move) (m : Move) (f : Fen)
    (hf : apply z.focus.fen m = some f)
    (hc : ∃ c ∈ z.focus.children, c.fen = f) :
    ∃ l c r, z.focus.children = l ++ c :: r ∧ c.fen = f ∧ (∀ x ∈ l, x.fen ≠ f) ∧
      makeMove apply editApply false z m =
        .ok ⟨c, ⟨z.focus.fen, z.focus.moveIn, .mem l r⟩ :: z.crumbs⟩ ∧
      rootOf ⟨c, ⟨z.focus.fen, z.focus.moveIn, .mem l r⟩ :: z.crumbs⟩ = rootOf z := by
  obtain ⟨⟨pf, pmi, cs⟩, cr⟩ := z
  simp only [VariationTree.fen_mk, VariationTree.moveIn_mk, VariationTree.children_mk] at hf hc ⊢
  obtain ⟨l, c, r, hsplit⟩ := splitAtFen_isSome hc
  obtain ⟨hcs, hcf, hl⟩ := splitAtFen_eq hsplit
  have hne : ¬ cs.length = 0 := by
    subst hcs
    simp
  have hnall : ¬ ∀ c' ∈ cs, c'.fen ≠ f := by
    obtain ⟨c₀, hc₀, hc₀f⟩ := hc
    exact fun hall => hall c₀ hc₀ hc₀f
  refine ⟨l, c, r, hcs, hcf, hl, ?_, ?_⟩
  · simp [makeMove, hf, hne, hnall, hsplit]
  · rw [rootOf_cons]
    simp only [zipUp1]
    rw [← hcs]

/-- C7 (amended): undoMove and redoMove are silent at the boundaries — at
the root, and respectively on a childless node, they return the state
unchanged and surface no error value (the source functions are void and
never produce `AtRoot`/`NoChildren` errors); otherwise undoMove moves the
cursor to the parent and redoMove to `children[0]`; neither operation
modifies any node (the root tree is preserved). -/
theorem claim_C7 (z : Cursor Fen Move) :
    (z.crumbs = [] → undoMove z = (z, none)) ∧
    (∀ c cr, z.crumbs = c :: cr → undoMove z = (⟨zipUp1 c z.focus, cr⟩, none)) ∧
    (undoMove z).2 = none ∧
    rootOf (undoMove z).1 = rootOf z ∧
    (z.focus.children = [] → redoMove z = (z, none)) ∧
    (∀ c cs, z.focus.children = c :: cs →
      redoMove z = (⟨c, ⟨z.focus.fen, z.focus.moveIn, .mem [] cs⟩ :: z.crumbs⟩, none)) ∧
    (redoMove z).2 = none ∧
    rootOf (redoMove z).1 = rootOf z := by
  obtain ⟨t, cr⟩ := z
  refine ⟨?_, ?_, ?_, ?_, ?_, ?_, ?_, ?_⟩
  · intro h
    simp only at h
    subst h
    rfl
  · intro c cr' h
    simp only at h
    subst h
    rfl
  · cases cr <;> rfl
  · cases cr with
    | nil => rfl
    | cons c rest => rw [show (undoMove ⟨t, c :: rest⟩).1 = ⟨zipUp1 c t, rest⟩ from rfl,
        rootOf_cons]
  · intro h
    match t, h with
    | .mk f mi [], _ => rfl
  · intro c cs h
    match t, h with
    | .mk f mi (c' :: cs'), h =>
      simp only [VariationTree.children_mk] at h
      cases h
      rfl
  · match t with
    | .mk f mi [] => rfl
    | .mk f mi (c :: cs) => rfl
  · match t with
    | .mk f mi [] => rfl
    | .mk f mi (c :: cs) =>
      rw [show (redoMove ⟨VariationTree.mk f mi (c :: cs), cr⟩).1 =
        ⟨c, ⟨f, mi, .mem [] cs⟩ :: cr⟩ from rfl, rootOf_cons]
      simp [zipUp1]

/-- C8: goToStart moves the cursor to the root of the tree containing the
current node — the ancestor reached by exhausting the parent links, which
has no parent (empty crumbs), whatever position the tree was rooted at —
and goToEnd moves the cursor along first children until it reaches a leaf;
neither operation modifies any node (the root tree is preserved). -/
theorem claim_C8 (z : Cursor Fen Move) :
    goToStart z = ⟨rootOf z, []⟩ ∧
    rootOf (goToStart z) = rootOf z ∧
    (goToStart z).crumbs = [] ∧
    rootOf (goToEnd z) = rootOf z ∧
    FirstChain z.focus (goToEnd z).focus ∧
    (goToEnd z).focus.children = [] := by
  have h1 : goToStart z = ⟨rootOf z, []⟩ := getTopVariation_eq z
  have h2 := getBottomVariation_spec z
  refine ⟨h1, ?_, ?_, h2.1, h2.2.2, h2.2.1⟩
  · rw [h1]
    rfl
  · rw [h1]

/-- C9: resetToFen discards the entire tree — the result does not depend on
the previous state at all — and leaves the cursor on a fresh single-node
tree whose root carries the given position, no parent (empty crumbs), no
move, and no children. -/
theorem claim_C9 (z z' : Cursor Fen Move) (f : Fen) :
    resetToFen z f = ⟨.mk f none [], []⟩ ∧
    resetToFen z f = resetToFen z' f ∧
    (resetToFen z f).focus.fen = f ∧
    (resetToFen z f).focus.moveIn = none ∧
    (resetToFen z f).focus.children = [] ∧
    (resetToFen z f).crumbs = [] ∧
    countNodes (rootOf (resetToFen z f)) = 1 := by
  refine ⟨rfl, rfl, rfl, rfl, rfl, rfl, ?_⟩
  simp [resetToFen, countNodes, countList]

/-- C10: makeMove in editing mode does not append to the current tree: it
returns a fresh single-node root whose position is the edited board
(`editApply` applied to the current position), with no parent, no move and
no children, and the result retains nothing of the previous tree — it
depends only on the current node's position. -/
theorem claim_C10 [DecidableEq Fen] (apply : Fen → Move → Option Fen)
    (editApply : Fen → Move → Fen) (z : Cursor Fen Move) (m : Move) :
    makeMove apply editApply true z m = .ok ⟨.mk (editApply z.focus.fen m) none [], []⟩ ∧
    (∀ z₂ : Cursor Fen Move, z₂.focus.fen = z.focus.fen →
      makeMove apply editApply true z₂ m = makeMove apply editApply true z m) ∧
    countNodes (rootOf
      (⟨VariationTree.mk (editApply z.focus.fen m) none [], []⟩ : Cursor Fen Move)) = 1 := by
  refine ⟨rfl, ?_, ?_⟩
  · intro z₂ h
    simp [makeMove, h]
  · simp [countNodes, countList]

theorem claim_C1_witness :
    makeMove apN edN false zRoot 5 = .error (5, 0) ∧
      makeMoveStep apN edN false zRoot 5 = zRoot :=
  claim_C1 apN edN zRoot 5 (by decide)

theorem claim_C2_witness :
    (makeMoves apN zRoot [0, 5]).2 = some (5, 1) ∧
    (makeMoves apN zRoot [0, 5]).1.crumbs = [] ∧
    (makeMoves apN zRoot [0, 5]).1.focus.fen = 0 ∧
    (makeMoves apN zRoot [0, 5]).1.focus.moveIn = none ∧
    rootOf (makeMoves apN zRoot [0, 5]).1 = rootOf (makeMoves apN zRoot [0]).1 :=
  claim_C2 apN zRoot [0] 5 [] 1 (by decide) (by decide)

/-- Counterexample to C2 as stated: from the fresh tree at position 0,
`makeMoves [0, 5]` legally applies move 0 (creating the node at position 1,
retained in the tree) and then fails on move 5; the reported error and the
retained prefix are as the claim says, but the cursor rests on the node at
position 0 — the node it occupied before the call — not on the last legal
node, whose position is 1. -/
theorem claim_C2_counterexample :
    (makeMoves apN zRoot [0, 5]).2 = some (5, 1) ∧
    rootOf (makeMoves apN zRoot [0, 5]).1 = .mk 0 none [.mk 1 (some 0) []] ∧
    (makeMoves apN zRoot [0, 5]).1.focus.fen = 0 ∧
    ¬ (makeMoves apN zRoot [0, 5]).1.focus.fen = 1 := by
  refine ⟨rfl, rfl, rfl, by decide⟩

theorem claim_C3_witness :
    ∃ l c r,
      [VariationTree.mk 1 (some 0) ([] : List (VariationTree Nat Nat))] = l ++ c :: r ∧
      c.fen = 1 ∧ (∀ x ∈ l, x.fen ≠ 1) ∧
      makeMove apN edN false zOne 0 = .ok ⟨c, ⟨0, none, .mem l r⟩ :: []⟩ ∧
      rootOf ⟨c, ⟨0, none, .mem l r⟩ :: []⟩ = rootOf zOne :=
  claim_C3 apN edN zOne 0 1 (by decide) ⟨.mk 1 (some 0) [], by simp [zOne], rfl⟩

theorem claim_C6_witness :
    cursorAtPath (rootOf zChild) [0] = some zChild ∧
      getNodeAtPath (rootOf zChild) [0] = some zChild.focus := by
  have h := claim_C6 zChild [0] (by decide)
  exact ⟨h.1, h.2.1⟩

theorem claim_C7_witness :
    undoMove zRoot = (zRoot, none) ∧ redoMove zRoot = (zRoot, none) :=
  ⟨(claim_C7 zRoot).1 rfl, (claim_C7 zRoot).2.2.2.2.1 rfl⟩

/-- Counterexample to C7 as stated: at the root, undoMove surfaces no
error value at all (the source function is void), so it does not return an
AtRoot error; likewise redoMove on a childless node returns no NoChildren
error. -/
theorem claim_C7_counterexample :
    ¬ (undoMove zRoot).2 = some () ∧ ¬ (redoMove zRoot).2 = some () := by
  exact ⟨by decide, by decide⟩

theorem claim_C10_witness :
    makeMove apN edN true zEdit 2 = .ok ⟨.mk 302 none [], []⟩ ∧
    makeMove apN edN true (⟨.mk 3 none [], []⟩ : Cursor Nat Nat) 2 =
      makeMove apN edN true zEdit 2 ∧
    countNodes (rootOf (⟨VariationTree.mk 302 none [], []⟩ : Cursor Nat Nat)) = 1 := by
  have h := claim_C10 apN edN zEdit 2
  exact ⟨h.1, h.2.1 ⟨.mk 3 none [], []⟩ rfl, h.2.2⟩


end EnCroissant
